import Mathlib

/-!
The libfalltergeist `Dat::Item` : a lazily materialized, endianness-aware byte stream

Shallow embedding of `src/Dat/Item.cpp`.  An `Item` is a `std::streambuf` over a buffer
that is filled on first use, either from a standalone file stream or from an entry of a
DAT archive (stored raw or deflate-compressed).

Conventions of the embedding:

* bytes are `Fin 256`; `unsigned int` values are natural numbers, reduced `% 4294967296`
  at the places where the C++ code converts to `unsigned int`;
* the three `std::streambuf` get-area pointers `eback()`, `gptr()`, `egptr()` are offsets
  relative to the start of `_buffer` (they are null, offset 0, before materialization);
* a read through a pointer that lies outside `_buffer` is undefined behaviour in C++; the
  operations that can perform one return `Option`, with `none` standing for it;
* a `uint32_t` / `uint16_t` object is seen through `char *` as its bytes in host order; the
  host is little-endian (as for the byte-swapping logic of the code to make sense).
-/

namespace Dat

/-- One octet. -/
abbrev Byte := Fin 256

/-- The modulus of `unsigned int` arithmetic (32 bits). -/
abbrev UINT_MOD : Nat := 4294967296

/-- Byte order selected on an item (`enum Endianness` used by `Item::endianness`). -/
inductive Endianness where
  | ENDIANNESS_BIG
  | ENDIANNESS_LITTLE
deriving DecidableEq, Repr

/-- Modelled from the spec: the archive accessor `Dat::File`, whose source is not among the
files at hand.  Section 6 of the spec: an accessor "exposing `currentPosition()`,
`setPosition(n)`, and `readBytes(dst, n)` (positioned synchronous reads)".  It is the bytes
of the archive together with the shared read position. -/
structure File where
  content : List Byte
  pos : Nat
deriving DecidableEq, Repr

/-- Modelled from the spec: `File::position()`, the current read position of the archive. -/
def File.position (f : File) : Nat := f.pos

/-- Modelled from the spec: `File::setPosition(n)`, which moves the read position to `n`. -/
def File.setPosition (f : File) (position : Nat) : File := { f with pos := position }

/-- Modelled from the spec: `File::readBytes(dst, n)`, a positioned synchronous read.  The
bytes of the archive from the read position on, at most `size` of them, replace the start of
`destination`; the read position moves past them. -/
def File.readBytes (f : File) (destination : List Byte) (size : Nat) : File × List Byte :=
  let got := (f.content.drop f.pos).take size
  ({ f with pos := f.pos + got.length }, got ++ destination.drop got.length)

/-- Modelled from the spec: the archive entry descriptor `Dat::Entry`, whose source is not
among the files at hand.  Section 3 of the spec: "filename, byte offset into parent archive,
packed size, unpacked size, compressed flag, back-reference to the parent archive
accessor".  The accessor reached through `datFile()` is kept inside the descriptor. -/
structure Entry where
  filename : String
  dataOffset : Nat
  packedSize : Nat
  unpackedSize : Nat
  compressed : Bool
  datFile : File
deriving DecidableEq, Repr

/-- The part of `std::ifstream` that `Item::_initialize` uses: the bytes of an opened file,
the get position and whether the stream is still open.  The stream is taken to be open and
in a good state when the item is built from it. -/
structure IfStream where
  content : List Byte
  pos : Nat
  isOpen : Bool
deriving DecidableEq, Repr

/-- The call `seekg(0, std::ios::end)`. -/
def IfStream.seekg_end (s : IfStream) : IfStream := { s with pos := s.content.length }

/-- The call `seekg(0, std::ios::beg)`. -/
def IfStream.seekg_beg (s : IfStream) : IfStream := { s with pos := 0 }

/-- The call `tellg()`. -/
def IfStream.tellg (s : IfStream) : Nat := s.pos

/-- The call `read(dst, n)`: the available bytes, at most `n`, go to the start of `dst`. -/
def IfStream.read (s : IfStream) (destination : List Byte) (n : Nat) : IfStream × List Byte :=
  let got := (s.content.drop s.pos).take n
  ({ s with pos := s.pos + got.length }, got ++ destination.drop got.length)

/-- The call `close()`. -/
def IfStream.close (s : IfStream) : IfStream := { s with isOpen := false }

/-- What the code gets from outside the repository and cannot be computed from the item:

* `inflate input availOut` stands for the zlib sequence `inflateInit; inflate(Z_FINISH);
  inflateEnd` run on the input bytes with `availOut` bytes of room: it gives zlib's return
  code and the bytes written to the output (zlib never writes more than `availOut`);
* `uninit i` is the value found at index `i` of a freshly allocated, uninitialized array
  (`new uint8_t[n]` leaves its elements indeterminate). -/
structure Env where
  inflate : List Byte → Nat → Int × List Byte
  uninit : Nat → Byte

/-- The zlib return code for a completed stream. -/
abbrev Z_STREAM_END : Int := 1

/-- The zlib return code for corrupt input. -/
abbrev Z_DATA_ERROR : Int := -3

/-- The zlib return code for "no progress possible" (output or input exhausted). -/
abbrev Z_BUF_ERROR : Int := -5

/-- The expression `new uint8_t[n]`: an array of `n` bytes with indeterminate content. -/
def Env.newArray (env : Env) (n : Nat) : List Byte := (List.range n).map env.uninit

/-- The state of a `Dat::Item`: its own members and the get area of its `std::streambuf`
base (`eback`, `gptr`, `egptr`, as offsets into `_buffer`). -/
structure Item where
  _filename : String
  _datFileEntry : Option Entry
  _stream : Option IfStream
  _buffer : List Byte
  _size : Nat
  _endianness : Endianness
  _initialized : Bool
  eback : Nat
  gptr : Nat
  egptr : Nat
deriving DecidableEq, Repr

namespace Item

/-- The call `std::streambuf::setg(_buffer + gbeg, _buffer + gnext, _buffer + gend)`. -/
def setg (it : Item) (gbeg gnext gend : Nat) : Item :=
  { it with eback := gbeg, gptr := gnext, egptr := gend }

/-- The archive-entry branch of `Item::_initialize` (lines 67-106), for the entry `entry`. -/
def initializeFromEntry (env : Env) (it : Item) (entry : Entry) : Item :=
  let buffer0 := env.newArray entry.unpackedSize
  let size := entry.unpackedSize % UINT_MOD
  let datFile := entry.datFile
  let oldPos := datFile.position % UINT_MOD
  let datFile := datFile.setPosition entry.dataOffset
  if entry.compressed then
    let packedData : List Byte := List.replicate entry.packedSize 0
    let r := datFile.readBytes packedData entry.packedSize
    let z := env.inflate (r.2.take entry.packedSize) size
    let written := z.2.take size
    let buffer := written ++ buffer0.drop written.length
    let datFile := r.1.setPosition oldPos
    setg { it with _buffer := buffer, _size := size,
                   _datFileEntry := some { entry with datFile := datFile } } 0 0 size
  else
    let r := datFile.readBytes buffer0 size
    let datFile := r.1.setPosition oldPos
    setg { it with _buffer := r.2, _size := size,
                   _datFileEntry := some { entry with datFile := datFile } } 0 0 size

/-- The raw-stream branch of `Item::_initialize` (lines 54-65), for the stream `stream`. -/
def initializeFromStream (env : Env) (it : Item) (stream : IfStream) : Item :=
  let stream := stream.seekg_end
  let size := stream.tellg % UINT_MOD
  let stream := stream.seekg_beg
  let buffer0 := env.newArray size
  let r := stream.read buffer0 size
  let stream := r.1.close
  setg { it with _buffer := r.2, _size := size, _stream := some stream } 0 0 size

/-- `Item::_initialize`: the one-time materialization of the buffer. -/
def _initialize (env : Env) (it : Item) : Item :=
  if it._initialized then it
  else
    let it := { it with _initialized := true }
    match it._stream with
    | some stream => initializeFromStream env it stream
    | none =>
      match it._datFileEntry with
      | some entry => initializeFromEntry env it entry
      | none => it

/-- `Item::size`: materializes, then gives `_size`. -/
def size (env : Env) (it : Item) : Item × Nat :=
  let it := Item._initialize env it
  (it, it._size)

/-- What `underflow`, `uflow` and `sbumpc` give back (`int_type`): end of data or a byte. -/
inductive IntType where
  | eof
  | char (c : Byte)
deriving DecidableEq, Repr

/-- `Item::underflow`: materializes; end of data when `gptr() == egptr()`, otherwise the
byte `*gptr()` (undefined when `gptr()` points outside the buffer). -/
def underflow (env : Env) (it : Item) : Option (Item × IntType) :=
  let it := Item._initialize env it
  if it.gptr = it.egptr then some (it, IntType.eof)
  else
    match it._buffer[it.gptr]? with
    | some c => some (it, IntType.char c)
    | none => none

/-- The default `std::streambuf::uflow`: calls `underflow`; on end of data gives end of
data, otherwise gives `*gptr()` and advances `gptr()` by one. -/
def uflow (env : Env) (it : Item) : Option (Item × IntType) :=
  match underflow env it with
  | none => none
  | some (it, IntType.eof) => some (it, IntType.eof)
  | some (it, IntType.char _) =>
    match it._buffer[it.gptr]? with
    | some c => some ({ it with gptr := it.gptr + 1 }, IntType.char c)
    | none => none

/-- The call `std::streambuf::sbumpc`: when a read position is available
(`gptr() < egptr()`) gives `*gptr()` and advances `gptr()`, otherwise gives `uflow()`. -/
def sbumpc (env : Env) (it : Item) : Option (Item × IntType) :=
  if it.gptr < it.egptr then
    match it._buffer[it.gptr]? with
    | some c => some ({ it with gptr := it.gptr + 1 }, IntType.char c)
    | none => none
  else uflow env it

/-- The default `std::streambuf::xsgetn`: reads up to `n` bytes "as if by repeated calls to
`sbumpc()`" and stops early when a call gives end of data.  The result is the bytes read. -/
def xsgetn (env : Env) : Item → Nat → Option (Item × List Byte)
  | it, 0 => some (it, [])
  | it, n + 1 =>
    match sbumpc env it with
    | none => none
    | some (it1, IntType.eof) => some (it1, [])
    | some (it1, IntType.char c) =>
      match xsgetn env it1 n with
      | none => none
      | some (it2, cs) => some (it2, c :: cs)

/-- The call `sgetn(destination, n)`: the bytes read replace the start of `destination`,
whose other bytes keep their value. -/
def sgetn (env : Env) (it : Item) (destination : List Byte) (n : Nat) :
    Option (Item × List Byte) :=
  match xsgetn env it n with
  | none => none
  | some (it1, cs) => some (it1, cs ++ destination.drop cs.length)

/-- The C library function `::tolower` in the "C" locale: the letters A-Z (codes 65-90) go
to a-z (code plus 32), every other character is returned as it is. -/
def tolower (c : Char) : Char :=
  if 65 ≤ c.toNat ∧ c.toNat ≤ 90 then Char.ofNat (c.toNat + 32) else c

/-- `Item::setFilename`: stores the name with every backslash (code 92) replaced by a slash
(code 47) as `std::replace` does, and then every character mapped through `::tolower` as
`std::transform` does. -/
def setFilename (it : Item) (filename : String) : Item :=
  let replaced := filename.data.map (fun c => if c = Char.ofNat 92 then Char.ofNat 47 else c)
  { it with _filename := String.mk (replaced.map tolower) }

/-- `Item::filename`. -/
def filename (it : Item) : String := it._filename

/-- `Item::setPosition`. -/
def setPosition (env : Env) (it : Item) (pos : Nat) : Item :=
  let it := Item._initialize env it
  setg it 0 pos it._size

/-- `Item::position`: materializes, then gives `gptr() - eback()` as an `unsigned int`. -/
def position (env : Env) (it : Item) : Item × Nat :=
  let it := Item._initialize env it
  (it, Int.toNat (((it.gptr : Int) - (it.eback : Int)) % (UINT_MOD : Int)))

/-- `Item::skipBytes`. -/
def skipBytes (env : Env) (it : Item) (numberOfBytes : Nat) : Item :=
  let it := Item._initialize env it
  setg it 0 (it.gptr + numberOfBytes) it._size

/-- `Item::readBytes`. -/
def readBytes (env : Env) (it : Item) (destination : List Byte) (size : Nat) :
    Option (Item × List Byte) :=
  let it := Item._initialize env it
  sgetn env it destination size

/-- The bytes of an unsigned value of `width` bytes as they lie in memory of the
little-endian host, lowest byte first. -/
def toBytes : Nat → Nat → List Byte
  | 0, _ => []
  | width + 1, v => ⟨v % 256, Nat.mod_lt _ (by decide)⟩ :: toBytes width (v / 256)

/-- The unsigned value whose bytes in memory of the little-endian host are the given ones. -/
def ofBytes : List Byte → Nat
  | [] => 0
  | b :: bs => b.val + 256 * ofBytes bs

/-- `Item::operator>>(uint32_t &value)`; `value` is what the variable held before. -/
def extract_uint32 (env : Env) (it : Item) (value : Nat) : Option (Item × Nat) :=
  let it := Item._initialize env it
  let buff := toBytes 4 value
  match sgetn env it buff 4 with
  | none => none
  | some (it1, buff1) =>
    let buff2 := if it1._endianness = Endianness.ENDIANNESS_BIG then buff1.reverse else buff1
    some (it1, ofBytes buff2)

/-- `Item::operator>>(uint16_t &value)`; `value` is what the variable held before. -/
def extract_uint16 (env : Env) (it : Item) (value : Nat) : Option (Item × Nat) :=
  let it := Item._initialize env it
  let buff := toBytes 2 value
  match sgetn env it buff 2 with
  | none => none
  | some (it1, buff1) =>
    let buff2 := if it1._endianness = Endianness.ENDIANNESS_BIG then buff1.reverse else buff1
    some (it1, ofBytes buff2)

/-- `Item::operator>>(uint8_t &value)`; `value` is what the variable held before. -/
def extract_uint8 (env : Env) (it : Item) (value : Nat) : Option (Item × Nat) :=
  let it := Item._initialize env it
  match sgetn env it (toBytes 1 value) 1 with
  | none => none
  | some (it1, buff1) => some (it1, ofBytes buff1)

/-- The unsigned value with the same bit pattern as the signed `value` of `bits` bits: what
the cast `(uint32_t&) value` (and its 16- and 8-bit likes) lets the unsigned decode see. -/
def toUnsigned (bits : Nat) (value : Int) : Nat := Int.toNat (value % (2 ^ bits : Int))

/-- The signed, two's-complement value with the same bit pattern as the unsigned `value` of
`bits` bits: what the signed variable holds once the unsigned decode has written to it. -/
def toSigned (bits : Nat) (value : Nat) : Int :=
  if value % 2 ^ bits < 2 ^ (bits - 1) then ((value % 2 ^ bits : Nat) : Int)
  else ((value % 2 ^ bits : Nat) : Int) - (2 ^ bits : Int)

/-- `Item::operator>>(int32_t &value)`: the unsigned decode run on the same variable. -/
def extract_int32 (env : Env) (it : Item) (value : Int) : Option (Item × Int) :=
  match extract_uint32 env it (toUnsigned 32 value) with
  | none => none
  | some (it1, r) => some (it1, toSigned 32 r)

/-- `Item::operator>>(int16_t &value)`: the unsigned decode run on the same variable. -/
def extract_int16 (env : Env) (it : Item) (value : Int) : Option (Item × Int) :=
  match extract_uint16 env it (toUnsigned 16 value) with
  | none => none
  | some (it1, r) => some (it1, toSigned 16 r)

/-- `Item::operator>>(int8_t &value)`: the unsigned decode run on the same variable. -/
def extract_int8 (env : Env) (it : Item) (value : Int) : Option (Item × Int) :=
  match extract_uint8 env it (toUnsigned 8 value) with
  | none => none
  | some (it1, r) => some (it1, toSigned 8 r)

/-- `Item::endianness`. -/
def endianness (it : Item) : Endianness := it._endianness

/-- `Item::setEndianness`. -/
def setEndianness (it : Item) (value : Endianness) : Item := { it with _endianness := value }

/-- `Item::bytesRemains`: `size() - position()` in `unsigned int` arithmetic. -/
def bytesRemains (env : Env) (it : Item) : Item × Nat :=
  let s := size env it
  let p := position env s.1
  (p.1, Int.toNat (((s.2 : Int) - (p.2 : Int)) % (UINT_MOD : Int)))

/-- A materialized item whose members are consistent with each other: the flag is set, the
buffer has `_size` bytes, `_size` fits an `unsigned int`, and the get area spans the
buffer (`eback` at its start, `egptr` at its end).  The read position is not constrained. -/
def Materialized (it : Item) : Prop :=
  it._initialized = true ∧ it._buffer.length = it._size ∧ it.eback = 0 ∧
    it.egptr = it._size ∧ it._size < UINT_MOD

instance (it : Item) : Decidable (Materialized it) :=
  inferInstanceAs (Decidable (it._initialized = true ∧ it._buffer.length = it._size ∧
    it.eback = 0 ∧ it.egptr = it._size ∧ it._size < UINT_MOD))

/-- The value of the 32-bit word `v` with its four bytes in reverse order: byte 0 swapped
with byte 3 and byte 1 with byte 2. -/
def byteSwap32 (v : Nat) : Nat :=
  v % 256 * 16777216 + v / 256 % 256 * 65536 + v / 65536 % 256 * 256 + v / 16777216 % 256

/-- The value that a multi-byte decode makes of the bytes of one field under the byte order
`e`: the bytes are reversed for big-endian data and then read in host order. -/
def fieldValue (e : Endianness) (field : List Byte) : Nat :=
  ofBytes (if e = Endianness.ENDIANNESS_BIG then field.reverse else field)

/-- The normal form of one character of a file name as the specification words it: a
backslash becomes a slash, an upper-case ASCII letter becomes its lower-case letter, any
other character stays. -/
def normalizeChar (c : Char) : Char :=
  if c.toNat = 92 then Char.ofNat 47
  else if 65 ≤ c.toNat ∧ c.toNat ≤ 90 then Char.ofNat (c.toNat + 32)
  else c

end Item

/-- One call of the positioned byte cursor. -/
inductive CursorCall where
  | setPosition (pos : Nat)
  | skipBytes (numberOfBytes : Nat)
  | readBytes (destination : List Byte) (size : Nat)
deriving DecidableEq, Repr

/-- The item after the call, `none` when the call has undefined behaviour. -/
def CursorCall.apply (env : Env) (it : Item) : CursorCall → Option Item
  | CursorCall.setPosition pos => some (Item.setPosition env it pos)
  | CursorCall.skipBytes numberOfBytes => some (Item.skipBytes env it numberOfBytes)
  | CursorCall.readBytes destination size =>
    match Item.readBytes env it destination size with
    | none => none
    | some r => some r.1

/-- Whether the call stays within bounds on the item: the new position is at most the size,
respectively the current position plus the count is at most the size. -/
def CursorCall.inBounds (env : Env) (it : Item) : CursorCall → Bool
  | CursorCall.setPosition pos => decide (pos ≤ (Item.size env it).2)
  | CursorCall.skipBytes numberOfBytes =>
    decide ((Item.position env it).2 + numberOfBytes ≤ (Item.size env it).2)
  | CursorCall.readBytes _ size =>
    decide ((Item.position env it).2 + size ≤ (Item.size env it).2)

/-- The item after a sequence of calls made one after the other. -/
def runCalls (env : Env) : Item → List CursorCall → Option Item
  | it, [] => some it
  | it, c :: cs =>
    match c.apply env it with
    | none => none
    | some it1 => runCalls env it1 cs

/-- Whether every call of the sequence stays within bounds on the item it is made on. -/
def allInBounds (env : Env) : Item → List CursorCall → Bool
  | _, [] => true
  | it, c :: cs =>
    c.inBounds env it &&
      (match c.apply env it with
       | none => true
       | some it1 => allInBounds env it1 cs)

/-- A small environment for examples: inflate fails at once with a data error and writes
nothing; fresh memory holds the byte 170 everywhere. -/
def envFail : Env := { inflate := fun _ _ => (Z_DATA_ERROR, []), uninit := fun _ => 170 }

/-- An item that is materialized over the six bytes 1, 2, 3, 4, 5, 6, read position 0. -/
def sampleItem : Item :=
  { _filename := "", _datFileEntry := none, _stream := none,
    _buffer := [1, 2, 3, 4, 5, 6], _size := 6,
    _endianness := Endianness.ENDIANNESS_LITTLE, _initialized := true,
    eback := 0, gptr := 0, egptr := 6 }

/-- The sample item with its read position at 1. -/
def sampleItem2 : Item := { sampleItem with gptr := 1 }

/-- A sample sequence of cursor calls: skip 2, read 3, reposition to 6, read nothing. -/
def sampleCalls : List CursorCall :=
  [CursorCall.skipBytes 2, CursorCall.readBytes [0, 0, 0] 3, CursorCall.setPosition 6,
    CursorCall.readBytes [] 0]

/-- The sample item with its read position at 5, one byte before the end. -/
def sampleItem5 : Item := { sampleItem with gptr := 5 }

/-- The sample item with its read position at 6, the end of the buffer. -/
def sampleItem6 : Item := { sampleItem with gptr := 6 }

/-- The cursor invariant `base ≤ current ≤ limit` on a materialized item: the get area
spans the buffer and the read position lies inside it or at its end. -/
def Item.CursorInv (it : Item) : Prop := it.Materialized ∧ it.gptr ≤ it._size

instance (it : Item) : Decidable (Item.CursorInv it) :=
  inferInstanceAs (Decidable (it.Materialized ∧ it.gptr ≤ it._size))

/-- What it means for an operation that leads from `it` to `it1` to preserve the cursor
invariant: `it1` satisfies it, position() is at most size() on `it1`, and `it1` has the
buffer and the size of `it`. -/
def Item.Preserved (env : Env) (it it1 : Item) : Prop :=
  it1.CursorInv ∧ (Item.position env it1).2 ≤ (Item.size env it1).2 ∧
    it1._buffer = it._buffer ∧ it1._size = it._size

/-- How a call of a member function ends for its caller: the function returns, or it leaves
through an exception that carries a message. -/
inductive Completion (α : Type) where
  | returned (result : α)
  | raised (what : String)
deriving DecidableEq, Repr

/-- The call `_initialize()` as its caller sees it.  `Item::_initialize` is a `void`
function without a `throw`; it looks at no return code of zlib and at no state of the
archive accessor or of the stream, so each of its paths ends by returning. -/
def Item.materialize (env : Env) (it : Item) : Completion Item :=
  Completion.returned ( Item._initialize env it)

/-- What the zlib calls of `Item::_initialize` (lines 83-94) give for the entry: the return
code of `inflate` and the bytes it wrote, for the packed bytes read at the data offset. -/
def Item.inflateCall (env : Env) (entry : Entry) : Int × List Byte :=
  env.inflate
    ((((entry.datFile.setPosition entry.dataOffset).readBytes
      (List.replicate entry.packedSize 0) entry.packedSize).2).take entry.packedSize)
    (entry.unpackedSize % UINT_MOD)

/-- A sample environment that behaves as zlib does on two inputs: the zlib stream of the
four bytes 1, 2, 3, 4 inflates to them (as far as there is room), and anything else, such as
four zero bytes, is rejected with a data error before a byte is written.  Fresh memory
holds the byte 170 everywhere. -/
def envZlib : Env :=
  { inflate := fun input availOut =>
      if input = [120, 156, 99, 100, 98, 102, 1, 0, 0, 24, 0, 11] then
        (if 4 ≤ availOut then (Z_STREAM_END, [1, 2, 3, 4])
         else (Z_BUF_ERROR, ([1, 2, 3, 4] : List Byte).take availOut))
      else (Z_DATA_ERROR, []),
    uninit := fun _ => 170 }

/-- A sample archive of ten bytes whose read position is 7. -/
def sampleFile : File := { content := [10, 11, 0, 0, 0, 0, 16, 17, 18, 19], pos := 7 }

/-- A sample entry stored raw: three bytes at offset 6 of the sample archive. -/
def rawEntry : Entry :=
  { filename := "RAW.BIN", dataOffset := 6, packedSize := 3, unpackedSize := 3,
    compressed := false, datFile := sampleFile }

/-- A sample entry flagged compressed whose packed data, the four zero bytes at offset 2 of
the sample archive, is no zlib stream; it declares an unpacked size of four. -/
def corruptEntry : Entry :=
  { filename := "BAD.BIN", dataOffset := 2, packedSize := 4, unpackedSize := 4,
    compressed := true, datFile := sampleFile }

/-- A sample archive that holds, from offset 3 on, the twelve bytes of the zlib stream of
the plaintext 1, 2, 3, 4; its read position is 2. -/
def zlibFile : File :=
  { content := [7, 7, 7, 120, 156, 99, 100, 98, 102, 1, 0, 0, 24, 0, 11, 7], pos := 2 }

/-- A sample entry flagged compressed: the zlib stream at offset 3 of `zlibFile`, twelve
packed bytes for four unpacked ones. -/
def zlibEntry : Entry :=
  { filename := "Z.BIN", dataOffset := 3, packedSize := 12, unpackedSize := 4,
    compressed := true, datFile := zlibFile }

/-- An item built on an entry and not yet materialized. -/
def entryItem (entry : Entry) : Item :=
  { _filename := "", _datFileEntry := some entry, _stream := none, _buffer := [], _size := 0,
    _endianness := Endianness.ENDIANNESS_LITTLE, _initialized := false,
    eback := 0, gptr := 0, egptr := 0 }

/-! ## General facts about the embedding -/

namespace Item

theorem initialize_of_initialized (env : Env) (it : Item) (h : it._initialized = true) :
    Item._initialize env it = it := by
  simp [Item._initialize, h]

theorem initialize_initialized (env : Env) (it : Item) :
    ( Item._initialize env it)._initialized = true := by
  unfold Item._initialize
  by_cases h : it._initialized = true
  · simp [h]
  · simp only [h]
    cases hs : it._stream with
    | some st => simp [initializeFromStream, setg]
    | none =>
      cases he : it._datFileEntry with
      | none => simp
      | some e =>
        by_cases hc : e.compressed = true <;> simp [initializeFromEntry, setg, hc]

theorem initialize_idem (env : Env) (it : Item) :
    Item._initialize env ( Item._initialize env it) = Item._initialize env it :=
  initialize_of_initialized env _ (initialize_initialized env it)

theorem Materialized.initialized {it : Item} (h : it.Materialized) : it._initialized = true :=
  h.1

theorem sbumpc_avail (env : Env) (it : Item) (hlen : it._buffer.length = it.egptr)
    (h : it.gptr < it.egptr) :
    ∃ c, it._buffer[it.gptr]? = some c ∧
      sbumpc env it = some ({ it with gptr := it.gptr + 1 }, IntType.char c) := by
  have hlt : it.gptr < it._buffer.length := by omega
  refine ⟨it._buffer[it.gptr], List.getElem?_eq_getElem hlt, ?_⟩
  simp [sbumpc, h, List.getElem?_eq_getElem hlt]

theorem sbumpc_end (env : Env) (it : Item) (hi : it._initialized = true)
    (h : it.gptr = it.egptr) : sbumpc env it = some (it, IntType.eof) := by
  have hn : ¬ it.gptr < it.egptr := by omega
  simp [sbumpc, uflow, underflow, initialize_of_initialized env it hi, h]

/-- Inside the buffer `xsgetn` reads the bytes from the read position on, as many as asked
for or as are left, and moves the read position past them. -/
theorem xsgetn_spec (env : Env) (n : Nat) (it : Item) (hi : it._initialized = true)
    (hlen : it._buffer.length = it.egptr) (hle : it.gptr ≤ it.egptr) :
    xsgetn env it n =
      some ({ it with gptr := it.gptr + min n (it.egptr - it.gptr) },
        (it._buffer.drop it.gptr).take n) := by
  induction n generalizing it with
  | zero => simp [xsgetn]
  | succ n ih =>
    by_cases h : it.gptr < it.egptr
    · obtain ⟨c, hc, hs⟩ := sbumpc_avail env it hlen h
      have hlt : it.gptr < it._buffer.length := by omega
      have ih1 := ih { it with gptr := it.gptr + 1 } hi hlen (by simp; omega)
      simp only [xsgetn, hs, ih1]
      have hd : it._buffer.drop it.gptr = c :: it._buffer.drop (it.gptr + 1) := by
        rw [List.drop_eq_getElem_cons hlt]
        rw [List.getElem?_eq_getElem hlt] at hc
        simp only [Option.some.injEq] at hc
        rw [hc]
      have hmin : it.gptr + 1 + min n (it.egptr - (it.gptr + 1)) =
          it.gptr + min (n + 1) (it.egptr - it.gptr) := by omega
      simp [hd, hmin]
    · have he : it.gptr = it.egptr := by omega
      have hdrop : it._buffer.drop it.gptr = [] := by
        apply List.drop_eq_nil_of_le
        omega
      simp only [xsgetn, sbumpc_end env it hi he, hdrop, List.take_nil, he, Nat.sub_self,
        Nat.min_zero, Nat.add_zero]
      rw [he] at hdrop
      rw [hdrop]
      cases it
      simp_all

/-- The effect of `readBytes` on a materialized item whose read position is inside the
buffer: the bytes left, at most `n`, go to the start of the destination. -/
theorem readBytes_spec (env : Env) (it : Item) (destination : List Byte) (n : Nat)
    (hm : it.Materialized) (hle : it.gptr ≤ it._size) :
    readBytes env it destination n =
      some ({ it with gptr := it.gptr + min n (it._size - it.gptr) },
        (it._buffer.drop it.gptr).take n ++
          destination.drop ((it._buffer.drop it.gptr).take n).length) := by
  obtain ⟨hi, hlen, _, heg, _⟩ := hm
  have hx := xsgetn_spec env n it hi (by omega) (by omega)
  simp [readBytes, sgetn, initialize_of_initialized env it hi, hx, heg]

theorem position_of_materialized (env : Env) (it : Item) (hm : it.Materialized) :
    position env it = (it, it.gptr % UINT_MOD) := by
  obtain ⟨hi, _, hb, _, _⟩ := hm
  simp only [position, initialize_of_initialized env it hi, hb, Prod.mk.injEq, true_and,
    UINT_MOD]
  omega

end Item

/-! ## Bulk reads and typed decodes inside the buffer -/

theorem ofBytes_toBytes_four (v : Nat) : Item.ofBytes (Item.toBytes 4 v) = v % UINT_MOD := by
  simp only [Item.toBytes, Item.ofBytes, UINT_MOD]
  omega

theorem ofBytes_reverse_toBytes_four (v : Nat) :
    Item.ofBytes (Item.toBytes 4 v).reverse = Item.byteSwap32 v := by
  simp only [Item.toBytes, Item.ofBytes, Item.byteSwap32, List.reverse_cons, List.reverse_nil,
    List.nil_append, List.cons_append, Nat.div_div_eq_div_mul, Nat.reduceMul]
  omega

theorem length_take_drop_buffer (it : Item) (p n : Nat) (hm : it.Materialized)
    (hn : p + n ≤ it._size) : ((it._buffer.drop p).take n).length = n := by
  have hlen := hm.2.1
  simp only [List.length_take, List.length_drop]
  omega

/-- C1: on a materialized item with buffer B and read position p (the get pointer stands
at offset p of the buffer), for every n with p + n not beyond the size, readBytes(dst, n) succeeds, puts exactly B[p], ..., B[p+n-1] in
this order into dst[0..n-1], leaves the rest of dst, the buffer and the size as they were,
and leaves position() equal to p + n. -/
theorem readBytes_copies_exactly (env : Env) (it : Item) (destination : List Byte) (p n : Nat)
    (hm : it.Materialized) (hp : it.gptr = p) (hn : p + n ≤ it._size) :
    ∃ it1 dst1, Item.readBytes env it destination n = some (it1, dst1) ∧
      dst1.take n = (it._buffer.drop p).take n ∧
      (∀ i, i < n → ∃ b, it._buffer[p + i]? = some b ∧ dst1[i]? = some b) ∧
      dst1.drop n = destination.drop n ∧
      it1._buffer = it._buffer ∧ it1._size = it._size ∧
      (Item.position env it1).2 = p + n := by
  subst hp
  have hlen := length_take_drop_buffer it it.gptr n hm hn
  have hb := hm.2.1
  have hsz := hm.2.2.2.2
  have hmin : it.gptr + min n (it._size - it.gptr) = it.gptr + n := by omega
  have hm1 : Item.Materialized { it with gptr := it.gptr + n } := hm
  refine ⟨{ it with gptr := it.gptr + n },
    (it._buffer.drop it.gptr).take n ++
      destination.drop ((it._buffer.drop it.gptr).take n).length, ?_, ?_, ?_, ?_, rfl, rfl, ?_⟩
  · rw [Item.readBytes_spec env it destination n hm (by omega), hmin]
  · rw [hlen, List.take_left' hlen]
  · intro i hi
    have hlt : it.gptr + i < it._buffer.length := by omega
    refine ⟨it._buffer[it.gptr + i], List.getElem?_eq_getElem hlt, ?_⟩
    rw [List.getElem?_append_left (by omega)]
    rw [List.getElem?_take_of_lt hi, List.getElem?_drop, List.getElem?_eq_getElem hlt]
  · rw [hlen, List.drop_left' hlen]
  · rw [Item.position_of_materialized env _ hm1]
    simp only [UINT_MOD] at hsz ⊢
    omega

/-- C1 at a concrete input: three bytes read from position 1 of the six-byte sample. -/
theorem readBytes_copies_exactly_witness :
    ∃ it1 dst1, Item.readBytes envFail sampleItem2 [9, 9, 9, 9] 3 = some (it1, dst1) ∧
      dst1.take 3 = (sampleItem2._buffer.drop 1).take 3 ∧
      (∀ i, i < 3 → ∃ b, sampleItem2._buffer[1 + i]? = some b ∧ dst1[i]? = some b) ∧
      dst1.drop 3 = ([9, 9, 9, 9] : List Byte).drop 3 ∧
      it1._buffer = sampleItem2._buffer ∧ it1._size = sampleItem2._size ∧
      (Item.position envFail it1).2 = 1 + 3 :=
  readBytes_copies_exactly envFail sampleItem2 [9, 9, 9, 9] 1 3 (by decide) (by decide)
    (by decide)

theorem sgetn_spec (env : Env) (it : Item) (destination : List Byte) (n : Nat)
    (hm : it.Materialized) (hle : it.gptr ≤ it._size) :
    Item.sgetn env it destination n =
      some ({ it with gptr := it.gptr + min n (it._size - it.gptr) },
        (it._buffer.drop it.gptr).take n ++
          destination.drop ((it._buffer.drop it.gptr).take n).length) := by
  obtain ⟨hi, hlen, _, heg, _⟩ := hm
  have hx := Item.xsgetn_spec env n it hi (by omega) (by omega)
  simp [Item.sgetn, hx, heg]

theorem length_toBytes (w v : Nat) : (Item.toBytes w v).length = w := by
  induction w generalizing v with
  | zero => rfl
  | succ w ih => simp [Item.toBytes, ih]

/-- A 32-bit decode with at least four bytes left: the read position moves by four and the
value is made of the four bytes at the read position alone. -/
theorem extract_uint32_in_bounds (env : Env) (it : Item) (value : Nat) (hm : it.Materialized)
    (h4 : it.gptr + 4 ≤ it._size) :
    Item.extract_uint32 env it value =
      some ({ it with gptr := it.gptr + 4 },
        Item.fieldValue it._endianness ((it._buffer.drop it.gptr).take 4)) := by
  have hlen := length_take_drop_buffer it it.gptr 4 hm h4
  have hmin : it.gptr + min 4 (it._size - it.gptr) = it.gptr + 4 := by omega
  have hd : (Item.toBytes 4 value).drop 4 = [] :=
    List.drop_eq_nil_of_le (by rw [length_toBytes])
  simp only [Item.extract_uint32, Item.initialize_of_initialized env it hm.1,
    sgetn_spec env it _ 4 hm (by omega), hlen, hmin, hd, List.append_nil, Item.fieldValue]

/-- A 16-bit decode with at least two bytes left: the read position moves by two and the
value is made of the two bytes at the read position alone. -/
theorem extract_uint16_in_bounds (env : Env) (it : Item) (value : Nat) (hm : it.Materialized)
    (h2 : it.gptr + 2 ≤ it._size) :
    Item.extract_uint16 env it value =
      some ({ it with gptr := it.gptr + 2 },
        Item.fieldValue it._endianness ((it._buffer.drop it.gptr).take 2)) := by
  have hlen := length_take_drop_buffer it it.gptr 2 hm h2
  have hmin : it.gptr + min 2 (it._size - it.gptr) = it.gptr + 2 := by omega
  have hd : (Item.toBytes 2 value).drop 2 = [] :=
    List.drop_eq_nil_of_le (by rw [length_toBytes])
  simp only [Item.extract_uint16, Item.initialize_of_initialized env it hm.1,
    sgetn_spec env it _ 2 hm (by omega), hlen, hmin, hd, List.append_nil, Item.fieldValue]

theorem toBytes_four_of_bytes (a b c d : Byte) :
    Item.toBytes 4 (a.val * 16777216 + b.val * 65536 + c.val * 256 + d.val) = [d, c, b, a] := by
  have ha := a.isLt
  have hb := b.isLt
  have hc := c.isLt
  have hd := d.isLt
  simp only [Item.toBytes, Nat.div_div_eq_div_mul, Nat.reduceMul, List.cons.injEq, and_true]
  refine ⟨Fin.ext ?_, Fin.ext ?_, Fin.ext ?_, Fin.ext ?_⟩ <;> simp only <;> omega

theorem toBytes_byteSwap32 (v : Nat) :
    Item.toBytes 4 (Item.byteSwap32 v) = (Item.toBytes 4 v).reverse := by
  have h := toBytes_four_of_bytes ⟨v % 256, Nat.mod_lt _ (by decide)⟩
    ⟨v / 256 % 256, Nat.mod_lt _ (by decide)⟩ ⟨v / 65536 % 256, Nat.mod_lt _ (by decide)⟩
    ⟨v / 16777216 % 256, Nat.mod_lt _ (by decide)⟩
  simp only [Item.byteSwap32]
  rw [h]
  simp only [Item.toBytes, List.reverse_cons, List.reverse_nil, List.nil_append,
    List.cons_append, Nat.div_div_eq_div_mul, Nat.reduceMul]

/-- C2: when the four bytes at the read position are the little-endian bytes of the 32-bit
value v (at least four bytes left), operator>>(uint32_t&) yields v itself under little
endianness and the byte-reversed value of v under big endianness, whatever the variable
held before; the byte-reversed value is the one whose bytes are those of v in reverse
order. -/
theorem extract_uint32_byte_order (env : Env) (it : Item) (value v p : Nat)
    (hm : it.Materialized) (hp : it.gptr = p) (h4 : p + 4 ≤ it._size) (hv : v < UINT_MOD)
    (hb : (it._buffer.drop p).take 4 = Item.toBytes 4 v) :
    (it._endianness = Endianness.ENDIANNESS_LITTLE →
      Item.extract_uint32 env it value = some ({ it with gptr := p + 4 }, v)) ∧
    (it._endianness = Endianness.ENDIANNESS_BIG →
      Item.extract_uint32 env it value = some ({ it with gptr := p + 4 }, Item.byteSwap32 v)) ∧
    Item.toBytes 4 (Item.byteSwap32 v) = (Item.toBytes 4 v).reverse := by
  subst hp
  have h := extract_uint32_in_bounds env it value hm h4
  rw [hb] at h
  refine ⟨fun he => ?_, fun he => ?_, toBytes_byteSwap32 v⟩
  · rw [h, he]
    simp only [Item.fieldValue, reduceCtorEq, if_false, ofBytes_toBytes_four]
    rw [Nat.mod_eq_of_lt hv]
  · rw [h, he]
    simp only [Item.fieldValue, if_true, ofBytes_reverse_toBytes_four]

/-- C2 at a concrete input: the bytes 1, 2, 3, 4 at position 0 are the value 0x04030201. -/
theorem extract_uint32_byte_order_witness :
    (sampleItem._endianness = Endianness.ENDIANNESS_LITTLE →
      Item.extract_uint32 envFail sampleItem 0 =
        some ({ sampleItem with gptr := 0 + 4 }, 67305985)) ∧
    (sampleItem._endianness = Endianness.ENDIANNESS_BIG →
      Item.extract_uint32 envFail sampleItem 0 =
        some ({ sampleItem with gptr := 0 + 4 }, Item.byteSwap32 67305985)) ∧
    Item.toBytes 4 (Item.byteSwap32 67305985) = (Item.toBytes 4 67305985).reverse :=
  extract_uint32_byte_order envFail sampleItem 0 67305985 0 (by decide) (by decide)
    (by decide) (by decide) (by decide)

/-- C3: on a materialized item at position p with at least six bytes left, under either
endianness and whatever the two variables held before, decoding a uint16_t and then a
uint32_t succeeds, leaves position() at p + 2 after the first decode and at p + 6 after the
second, and the 16-bit result is a function of the endianness and of buffer bytes p..p+1
only, the 32-bit result of the endianness and of buffer bytes p+2..p+5 only. -/
theorem sequential_decode_16_32 (env : Env) (it : Item) (value16 value32 p : Nat)
    (hm : it.Materialized) (hp : it.gptr = p) (h6 : p + 6 ≤ it._size) :
    ∃ it1 r16 it2 r32,
      Item.extract_uint16 env it value16 = some (it1, r16) ∧
      (Item.position env it1).2 = p + 2 ∧
      Item.extract_uint32 env it1 value32 = some (it2, r32) ∧
      (Item.position env it2).2 = p + 6 ∧
      r16 = Item.fieldValue it._endianness ((it._buffer.drop p).take 2) ∧
      r32 = Item.fieldValue it._endianness ((it._buffer.drop (p + 2)).take 4) := by
  subst hp
  have hsz := hm.2.2.2.2
  simp only [UINT_MOD] at hsz
  have hm1 : Item.Materialized { it with gptr := it.gptr + 2 } := hm
  have hm2 : Item.Materialized { it with gptr := it.gptr + 2 + 4 } := hm
  have h16 := extract_uint16_in_bounds env it value16 hm (by omega)
  have h32 := extract_uint32_in_bounds env { it with gptr := it.gptr + 2 } value32 hm1
    (by show it.gptr + 2 + 4 ≤ it._size; omega)
  refine ⟨_, _, _, _, h16, ?_, h32, ?_, rfl, rfl⟩
  · rw [Item.position_of_materialized env _ hm1]
    simp only [UINT_MOD]
    omega
  · rw [Item.position_of_materialized env _ hm2]
    simp only [UINT_MOD]
    omega

/-- C3 at a concrete input: the six-byte sample read from position 0. -/
theorem sequential_decode_16_32_witness :
    ∃ it1 r16 it2 r32,
      Item.extract_uint16 envFail sampleItem 7 = some (it1, r16) ∧
      (Item.position envFail it1).2 = 0 + 2 ∧
      Item.extract_uint32 envFail it1 9 = some (it2, r32) ∧
      (Item.position envFail it2).2 = 0 + 6 ∧
      r16 = Item.fieldValue sampleItem._endianness ((sampleItem._buffer.drop 0).take 2) ∧
      r32 = Item.fieldValue sampleItem._endianness ((sampleItem._buffer.drop (0 + 2)).take 4) :=
  sequential_decode_16_32 envFail sampleItem 7 9 0 (by decide) (by decide) (by decide)

/-! ## The position invariant -/

theorem size_of_materialized (env : Env) (it : Item) (hm : it.Materialized) :
    Item.size env it = (it, it._size) := by
  simp only [Item.size, Item.initialize_of_initialized env it hm.1]

/-- One in-bounds cursor call on a materialized item whose read position is inside the
buffer succeeds and gives again such an item. -/
theorem CursorCall.apply_inBounds (env : Env) (it : Item) (c : CursorCall)
    (hm : it.Materialized) (hle : it.gptr ≤ it._size) (hb : c.inBounds env it = true) :
    ∃ it1, c.apply env it = some it1 ∧ it1.Materialized ∧ it1.gptr ≤ it1._size := by
  have hsz := hm.2.2.2.2
  simp only [UINT_MOD] at hsz
  have hpos : (Item.position env it).2 = it.gptr := by
    rw [Item.position_of_materialized env it hm]
    simp only [UINT_MOD]
    omega
  obtain ⟨hi, hlen, heb, heg, hlt⟩ := hm
  have hm0 : it.Materialized := ⟨hi, hlen, heb, heg, hlt⟩
  cases c with
  | setPosition pos =>
    simp only [CursorCall.inBounds, size_of_materialized env it hm0, decide_eq_true_eq] at hb
    refine ⟨Item.setPosition env it pos, rfl, ?_, ?_⟩
    · simp only [Item.setPosition, Item.initialize_of_initialized env it hi, Item.setg]
      exact ⟨hi, hlen, rfl, rfl, hlt⟩
    · simp only [Item.setPosition, Item.initialize_of_initialized env it hi, Item.setg]
      exact hb
  | skipBytes k =>
    simp only [CursorCall.inBounds, size_of_materialized env it hm0, hpos,
      decide_eq_true_eq] at hb
    refine ⟨Item.skipBytes env it k, rfl, ?_, ?_⟩
    · simp only [Item.skipBytes, Item.initialize_of_initialized env it hi, Item.setg]
      exact ⟨hi, hlen, rfl, rfl, hlt⟩
    · simp only [Item.skipBytes, Item.initialize_of_initialized env it hi, Item.setg]
      exact hb
  | readBytes destination k =>
    refine ⟨{ it with gptr := it.gptr + min k (it._size - it.gptr) }, ?_,
      ⟨hi, hlen, heb, heg, hlt⟩, ?_⟩
    · simp only [CursorCall.apply, Item.readBytes_spec env it destination k hm0 hle]
    · show it.gptr + min k (it._size - it.gptr) ≤ it._size
      omega

theorem runCalls_inBounds (env : Env) (cs : List CursorCall) (it : Item)
    (hm : it.Materialized) (hle : it.gptr ≤ it._size) (hb : allInBounds env it cs = true)
    (k : Nat) :
    ∃ it1, runCalls env it (cs.take k) = some it1 ∧ it1.Materialized ∧
      it1.gptr ≤ it1._size := by
  induction cs generalizing it k with
  | nil => exact ⟨it, by simp [runCalls], hm, hle⟩
  | cons c cs ih =>
    cases k with
    | zero => exact ⟨it, by simp [runCalls], hm, hle⟩
    | succ k =>
      simp only [allInBounds, Bool.and_eq_true] at hb
      obtain ⟨it1, h1, hm1, hle1⟩ := CursorCall.apply_inBounds env it c hm hle hb.1
      have hb2 := hb.2
      rw [h1] at hb2
      obtain ⟨it2, h2, hm2, hle2⟩ := ih it1 hm1 hle1 hb2 k
      exact ⟨it2, by simp only [List.take_succ_cons, runCalls, h1, h2], hm2, hle2⟩

/-- C4: starting from a materialized item at position 0, for every finite sequence of
setPosition, skipBytes and readBytes calls each of which stays within bounds (new position
at most the size, current position plus count at most the size), every call succeeds and
position() is at most size() after each call, that is after every initial part of the
sequence. -/
theorem position_le_size_after_calls (env : Env) (it : Item) (cs : List CursorCall)
    (hm : it.Materialized) (h0 : it.gptr = 0) (hb : allInBounds env it cs = true) :
    ∀ k, k ≤ cs.length →
      ∃ it1, runCalls env it (cs.take k) = some it1 ∧
        (Item.position env it1).2 ≤ (Item.size env it1).2 := by
  intro k _
  obtain ⟨it1, h1, hm1, hle1⟩ := runCalls_inBounds env cs it hm (by omega) hb k
  refine ⟨it1, h1, ?_⟩
  rw [Item.position_of_materialized env it1 hm1, size_of_materialized env it1 hm1]
  exact le_trans (Nat.mod_le _ _) hle1

/-- C4 at a concrete input: skip 2, read 3, reposition to 6, read 0 on the six-byte sample. -/
theorem position_le_size_after_calls_witness :
    allInBounds envFail sampleItem sampleCalls = true ∧
    ∀ k, k ≤ sampleCalls.length →
      ∃ it1, runCalls envFail sampleItem (sampleCalls.take k) = some it1 ∧
        (Item.position envFail it1).2 ≤ (Item.size envFail it1).2 :=
  ⟨by decide,
    position_le_size_after_calls envFail sampleItem sampleCalls (by decide) (by decide)
      (by decide)⟩

/-- C5: in every materialized state bytesRemains() is size() - position() computed in
unsigned 32-bit arithmetic, and whenever position() is at most size() it is the exact
difference, so that bytesRemains() + position() = size(). -/
theorem bytesRemains_eq_size_sub_position (env : Env) (it : Item) (hm : it.Materialized) :
    (Item.bytesRemains env it).2 =
        Int.toNat ((((Item.size env it).2 : Int) - ((Item.position env it).2 : Int)) %
          (UINT_MOD : Int)) ∧
      ((Item.position env it).2 ≤ (Item.size env it).2 →
        (Item.bytesRemains env it).2 = (Item.size env it).2 - (Item.position env it).2 ∧
        (Item.bytesRemains env it).2 + (Item.position env it).2 = (Item.size env it).2) := by
  have hsz := hm.2.2.2.2
  simp only [Item.bytesRemains, size_of_materialized env it hm,
    Item.position_of_materialized env it hm, UINT_MOD] at hsz ⊢
  refine ⟨trivial, fun h => ?_⟩
  omega

/-- C5 at a concrete input: the six-byte sample at position 1 has five bytes left. -/
theorem bytesRemains_eq_size_sub_position_witness :
    (Item.bytesRemains envFail sampleItem2).2 =
        Int.toNat ((((Item.size envFail sampleItem2).2 : Int) -
          ((Item.position envFail sampleItem2).2 : Int)) % (UINT_MOD : Int)) ∧
      ((Item.position envFail sampleItem2).2 ≤ (Item.size envFail sampleItem2).2 →
        (Item.bytesRemains envFail sampleItem2).2 =
          (Item.size envFail sampleItem2).2 - (Item.position envFail sampleItem2).2 ∧
        (Item.bytesRemains envFail sampleItem2).2 + (Item.position envFail sampleItem2).2 =
          (Item.size envFail sampleItem2).2) :=
  bytesRemains_eq_size_sub_position envFail sampleItem2 (by decide)

/-! ## File names -/

theorem tolower_replace_eq_normalizeChar (c : Char) :
    Item.tolower (if c = Char.ofNat 92 then Char.ofNat 47 else c) = Item.normalizeChar c := by
  by_cases h : c = Char.ofNat 92
  · subst h
    decide
  · have hn : c.toNat ≠ 92 := by
      intro h92
      apply h
      rw [← Char.ofNat_toNat c, h92]
    simp only [h, if_false, Item.normalizeChar, hn, Item.tolower]

/-- C6: for every string s, after setFilename(s) the value of filename() has the length of
s and is s with every backslash replaced by a forward slash, every ASCII upper-case letter
A-Z replaced by its lower-case letter and every other character unchanged; the path
DATA, SPRITES, Foo.FRM with single backslash separators becomes data/sprites/foo.frm. -/
theorem setFilename_normalizes (it : Item) (s : String) :
    (Item.filename (Item.setFilename it s)).length = s.length ∧
    (Item.filename (Item.setFilename it s)).data = s.data.map Item.normalizeChar ∧
    (∀ i : Nat, (Item.filename (Item.setFilename it s)).data[i]? =
      (s.data[i]?).map Item.normalizeChar) ∧
    Item.filename (Item.setFilename it "DATA\\SPRITES\\Foo.FRM") = "data/sprites/foo.frm" := by
  have hdata : (Item.filename (Item.setFilename it s)).data = s.data.map Item.normalizeChar := by
    simp only [Item.filename, Item.setFilename, List.map_map]
    apply List.map_congr_left
    intro c _
    exact tolower_replace_eq_normalizeChar c
  refine ⟨?_, hdata, ?_, ?_⟩
  · simp only [String.length, hdata, List.length_map]
  · intro i
    rw [hdata, List.getElem?_map]
  · simp only [Item.filename, Item.setFilename]
    decide

/-! ## Materialization -/

theorem length_newArray (env : Env) (n : Nat) : (env.newArray n).length = n := by
  simp [Env.newArray]

theorem initialize_entry (env : Env) (it : Item) (e : Entry) (hi : it._initialized = false)
    (hs : it._stream = none) (he : it._datFileEntry = some e) :
    Item._initialize env it = Item.initializeFromEntry env { it with _initialized := true } e := by
  simp [Item._initialize, hi, hs, he]

/-- C7: for every item backed by an archive entry, compressed or not, and every position q
(an unsigned int) of the parent archive accessor before materialization, after
_initialize() the accessor is again at position q and holds the same bytes; this is so for
the first call, which moves the accessor to the data offset and reads from it, and for
every later call. -/
theorem initialize_restores_archive_position (env : Env) (it : Item) (e : Entry) (q : Nat)
    (he : it._datFileEntry = some e) (hq : e.datFile.position = q) (hq32 : q < UINT_MOD) :
    ( Item._initialize env it)._initialized = true ∧
    ∃ e1, ( Item._initialize env it)._datFileEntry = some e1 ∧
      e1.datFile.position = q ∧ e1.datFile.content = e.datFile.content := by
  refine ⟨Item.initialize_initialized env it, ?_⟩
  by_cases hi : it._initialized = true
  · rw [Item.initialize_of_initialized env it hi]
    exact ⟨e, he, hq, rfl⟩
  · have hi2 : it._initialized = false := by simpa using hi
    cases hs : it._stream with
    | some st =>
      refine ⟨e, ?_, hq, rfl⟩
      simp [Item._initialize, hi2, hs, Item.initializeFromStream, Item.setg, he]
    | none =>
      rw [initialize_entry env it e hi2 hs he]
      have hmod : e.datFile.pos % UINT_MOD = q := by
        rw [← hq, File.position]
        exact Nat.mod_eq_of_lt (by rw [← File.position, hq]; exact hq32)
      by_cases hc : e.compressed = true
      · simp only [Item.initializeFromEntry, hc, if_true, Item.setg, File.setPosition,
          File.readBytes, File.position, hmod]
        exact ⟨_, rfl, rfl, rfl⟩
      · simp only [Item.initializeFromEntry, hc, Item.setg, File.setPosition,
          File.readBytes, File.position, hmod]
        exact ⟨_, rfl, rfl, rfl⟩

/-- C7 at a concrete input: the compressed sample entry, archive accessor at position 7. -/
theorem initialize_restores_archive_position_witness :
    ( Item._initialize envZlib (entryItem corruptEntry))._initialized = true ∧
    ∃ e1, ( Item._initialize envZlib (entryItem corruptEntry))._datFileEntry = some e1 ∧
      e1.datFile.position = 7 ∧ e1.datFile.content = corruptEntry.datFile.content :=
  initialize_restores_archive_position envZlib (entryItem corruptEntry) corruptEntry 7
    (by decide) (by decide) (by decide)

theorem sbumpc_frame (env : Env) (it it1 : Item) (r : Item.IntType)
    (hi : it._initialized = true) (h : Item.sbumpc env it = some (it1, r)) :
    it1 = { it with gptr := it1.gptr } := by
  unfold Item.sbumpc Item.uflow Item.underflow at h
  simp only [Item.initialize_of_initialized env it hi] at h
  by_cases hlt : it.gptr < it.egptr
  · simp only [hlt, if_true] at h
    cases hb : it._buffer[it.gptr]? with
    | none => simp [hb] at h
    | some c =>
      simp only [hb, Option.some.injEq, Prod.mk.injEq] at h
      rw [← h.1]
  · simp only [hlt, if_false] at h
    by_cases heq : it.gptr = it.egptr
    · simp only [heq, if_true, Option.some.injEq, Prod.mk.injEq] at h
      rw [← h.1]
    · simp only [heq, if_false] at h
      cases hb : it._buffer[it.gptr]? with
      | none => simp [hb] at h
      | some c =>
        simp only [hb, Option.some.injEq, Prod.mk.injEq] at h
        rw [← h.1]

/-- Whatever `xsgetn` reads, it changes nothing of an initialized item but the read
position. -/
theorem xsgetn_frame (env : Env) (n : Nat) (it it1 : Item) (cs : List Byte)
    (hi : it._initialized = true) (h : Item.xsgetn env it n = some (it1, cs)) :
    it1 = { it with gptr := it1.gptr } := by
  induction n generalizing it it1 cs with
  | zero =>
    simp only [Item.xsgetn, Option.some.injEq, Prod.mk.injEq] at h
    rw [← h.1]
  | succ n ih =>
    simp only [Item.xsgetn] at h
    cases hs : Item.sbumpc env it with
    | none => simp [hs] at h
    | some p =>
      obtain ⟨it2, r⟩ := p
      have hf := sbumpc_frame env it it2 r hi hs
      cases r with
      | eof =>
        simp only [hs, Option.some.injEq, Prod.mk.injEq] at h
        rw [← h.1]
        exact hf
      | char c =>
        simp only [hs] at h
        cases hx : Item.xsgetn env it2 n with
        | none => simp [hx] at h
        | some p2 =>
          obtain ⟨it3, cs3⟩ := p2
          simp only [hx, Option.some.injEq, Prod.mk.injEq] at h
          have hi2 : it2._initialized = true := by rw [hf]; exact hi
          have h3 := ih it2 it3 cs3 hi2 hx
          rw [← h.1]
          cases it
          cases it2
          cases it3
          simp only [Item.mk.injEq] at hf h3 ⊢
          simp only [h3, hf, and_self]

theorem sgetn_frame (env : Env) (n : Nat) (it it1 : Item) (dst dst1 : List Byte)
    (hi : it._initialized = true) (h : Item.sgetn env it dst n = some (it1, dst1)) :
    it1 = { it with gptr := it1.gptr } := by
  simp only [Item.sgetn] at h
  cases hx : Item.xsgetn env it n with
  | none => simp [hx] at h
  | some p =>
    obtain ⟨it2, cs⟩ := p
    simp only [hx, Option.some.injEq, Prod.mk.injEq] at h
    rw [← h.1]
    exact xsgetn_frame env n it it2 cs hi hx

/-- C8: materialization is idempotent.  On an item that has been materialized a further
_initialize() changes nothing at all (buffer, size, read position, source stream, entry and
parent archive accessor), so size() gives the same value and the same item on every call,
position() leaves the item as it is, and setPosition, skipBytes, readBytes and the decodes
change nothing but the read position. -/
theorem initialize_idempotent (env : Env) (it : Item) (hi : it._initialized = true) :
    Item._initialize env it = it ∧
    Item.size env it = (it, it._size) ∧
    (Item.size env (Item.size env it).1).2 = (Item.size env it).2 ∧
    (Item.position env it).1 = it ∧
    (∀ pos, Item.setPosition env it pos = { it with eback := 0, gptr := pos, egptr := it._size }) ∧
    (∀ k, Item.skipBytes env it k =
      { it with eback := 0, gptr := it.gptr + k, egptr := it._size }) ∧
    (∀ dst k it1 dst1, Item.readBytes env it dst k = some (it1, dst1) →
      it1 = { it with gptr := it1.gptr }) ∧
    (∀ value it1 r, Item.extract_uint32 env it value = some (it1, r) →
      it1 = { it with gptr := it1.gptr }) ∧
    (∀ value it1 r, Item.extract_uint16 env it value = some (it1, r) →
      it1 = { it with gptr := it1.gptr }) ∧
    (∀ value it1 r, Item.extract_uint8 env it value = some (it1, r) →
      it1 = { it with gptr := it1.gptr }) := by
  have h0 := Item.initialize_of_initialized env it hi
  refine ⟨h0, ?_, ?_, ?_, ?_, ?_, ?_, ?_, ?_, ?_⟩
  · simp only [Item.size, h0]
  · simp only [Item.size, h0]
  · simp only [Item.position, h0]
  · intro pos
    simp only [Item.setPosition, h0, Item.setg]
  · intro k
    simp only [Item.skipBytes, h0, Item.setg]
  · intro dst k it1 dst1 h
    simp only [Item.readBytes, h0] at h
    exact sgetn_frame env k it it1 dst dst1 hi h
  · intro value it1 r h
    simp only [Item.extract_uint32, h0] at h
    cases hx : Item.sgetn env it (Item.toBytes 4 value) 4 with
    | none => simp [hx] at h
    | some p =>
      obtain ⟨it2, b2⟩ := p
      simp only [hx, Option.some.injEq, Prod.mk.injEq] at h
      rw [← h.1]
      exact sgetn_frame env 4 it it2 _ b2 hi hx
  · intro value it1 r h
    simp only [Item.extract_uint16, h0] at h
    cases hx : Item.sgetn env it (Item.toBytes 2 value) 2 with
    | none => simp [hx] at h
    | some p =>
      obtain ⟨it2, b2⟩ := p
      simp only [hx, Option.some.injEq, Prod.mk.injEq] at h
      rw [← h.1]
      exact sgetn_frame env 2 it it2 _ b2 hi hx
  · intro value it1 r h
    simp only [Item.extract_uint8, h0] at h
    cases hx : Item.sgetn env it (Item.toBytes 1 value) 1 with
    | none => simp [hx] at h
    | some p =>
      obtain ⟨it2, b2⟩ := p
      simp only [hx, Option.some.injEq, Prod.mk.injEq] at h
      rw [← h.1]
      exact sgetn_frame env 1 it it2 _ b2 hi hx

/-- C8 at a concrete input: the materialized six-byte sample. -/
theorem initialize_idempotent_witness :
    sampleItem._initialized = true ∧ Item._initialize envZlib sampleItem = sampleItem ∧
    Item.size envZlib sampleItem = (sampleItem, 6) :=
  ⟨by decide, (initialize_idempotent envZlib sampleItem (by decide)).1,
    (initialize_idempotent envZlib sampleItem (by decide)).2.1⟩

/-- C9: for an entry that is not flagged compressed, with data offset o and declared
unpacked size u (an unsigned int), inside an archive of at least o + u bytes, materializing
an item built on it gives size() = u, position() = 0 and a buffer equal to the archive bytes
at offsets o, ..., o+u-1 in order. -/
theorem initialize_raw_entry (env : Env) (it : Item) (e : Entry) (o u : Nat)
    (hi : it._initialized = false) (hs : it._stream = none) (he : it._datFileEntry = some e)
    (hc : e.compressed = false) (ho : e.dataOffset = o) (hu : e.unpackedSize = u)
    (hu32 : u < UINT_MOD) (hlen : o + u ≤ e.datFile.content.length) :
    (Item.size env ( Item._initialize env it)).2 = u ∧
    (Item.position env ( Item._initialize env it)).2 = 0 ∧
    ( Item._initialize env it)._buffer = (e.datFile.content.drop o).take u ∧
    ( Item._initialize env it)._buffer.length = u ∧
    (∀ i, i < u → ∃ b, e.datFile.content[o + i]? = some b ∧
      ( Item._initialize env it)._buffer[i]? = some b) := by
  subst ho hu
  have hmod : e.unpackedSize % UINT_MOD = e.unpackedSize := Nat.mod_eq_of_lt hu32
  have hgot : ((e.datFile.content.drop e.dataOffset).take e.unpackedSize).length =
      e.unpackedSize := by
    simp only [List.length_take, List.length_drop]
    omega
  have hbuf : ( Item._initialize env it)._buffer =
      (e.datFile.content.drop e.dataOffset).take e.unpackedSize := by
    have hd : (env.newArray e.unpackedSize).drop e.unpackedSize = [] :=
      List.drop_eq_nil_of_le (by rw [length_newArray])
    rw [initialize_entry env it e hi hs he]
    simp only [Item.initializeFromEntry, hc, Item.setg, File.setPosition, File.readBytes, hmod,
      hgot, Bool.false_eq_true, if_false, hd, List.append_nil]
  have hsize : ( Item._initialize env it)._size = e.unpackedSize := by
    rw [initialize_entry env it e hi hs he]
    simp only [Item.initializeFromEntry, hc, Item.setg, hmod, Bool.false_eq_true, if_false]
  have hg : ( Item._initialize env it).gptr = 0 ∧ ( Item._initialize env it).eback = 0 := by
    rw [initialize_entry env it e hi hs he]
    simp only [Item.initializeFromEntry, hc, Item.setg, Bool.false_eq_true, if_false, and_self]
  have hinit := Item.initialize_initialized env it
  refine ⟨?_, ?_, hbuf, ?_, ?_⟩
  · simp only [Item.size, Item.initialize_idem, hsize]
  · simp only [Item.position, Item.initialize_idem, hg.1, hg.2, UINT_MOD]
    rfl
  · rw [hbuf, hgot]
  · intro i hlt
    have hlt2 : e.dataOffset + i < e.datFile.content.length := by omega
    refine ⟨e.datFile.content[e.dataOffset + i], List.getElem?_eq_getElem hlt2, ?_⟩
    rw [hbuf, List.getElem?_take_of_lt hlt, List.getElem?_drop, List.getElem?_eq_getElem hlt2]

/-- C9 at a concrete input: the raw sample entry, three bytes at offset 6 of ten. -/
theorem initialize_raw_entry_witness :
    (Item.size envZlib ( Item._initialize envZlib (entryItem rawEntry))).2 = 3 ∧
    (Item.position envZlib ( Item._initialize envZlib (entryItem rawEntry))).2 = 0 ∧
    ( Item._initialize envZlib (entryItem rawEntry))._buffer =
      (rawEntry.datFile.content.drop 6).take 3 ∧
    ( Item._initialize envZlib (entryItem rawEntry))._buffer.length = 3 ∧
    (∀ i, i < 3 → ∃ b, rawEntry.datFile.content[6 + i]? = some b ∧
      ( Item._initialize envZlib (entryItem rawEntry))._buffer[i]? = some b) :=
  initialize_raw_entry envZlib (entryItem rawEntry) rawEntry 6 3 (by decide) (by decide)
    (by decide) (by decide) (by decide) (by decide) (by decide) (by decide)

/-- C10, counterexample: the compressed sample entry holds four zero bytes as packed data,
which inflate rejects with a data error before writing a byte (0 bytes against the 4
declared); materialization nevertheless returns to its caller, raises nothing, and leaves an
item that is marked initialized, reports size 4 and holds the four untouched bytes of the
fresh allocation. -/
theorem failed_inflate_returns_silently :
    Item.inflateCall envZlib corruptEntry = (Z_DATA_ERROR, []) ∧
    (Item.inflateCall envZlib corruptEntry).2.length ≠ corruptEntry.unpackedSize ∧
    Item.materialize envZlib (entryItem corruptEntry) =
      Completion.returned
        { entryItem corruptEntry with
          _buffer := [170, 170, 170, 170], _size := 4, _initialized := true, egptr := 4 } ∧
    (¬ ∃ what, Item.materialize envZlib (entryItem corruptEntry) = Completion.raised what) ∧
    (Item.size envZlib ( Item._initialize envZlib (entryItem corruptEntry))).2 = 4 := by
  refine ⟨by decide, by decide, by decide, ?_, by decide⟩
  rintro ⟨what, h⟩
  simp [Item.materialize] at h

/-- C10, amended: when inflating a compressed entry fails or yields a number of bytes
different from the declared unpacked size (an unsigned int), materialization signals no
error: it returns to its caller with the item marked initialized, size() equal to the
declared unpacked size, and a buffer of that length made of the bytes inflate wrote followed
by the untouched bytes of the fresh allocation. -/
theorem failed_inflate_completes (env : Env) (it : Item) (e : Entry)
    (hi : it._initialized = false) (hs : it._stream = none) (he : it._datFileEntry = some e)
    (hc : e.compressed = true) (hu32 : e.unpackedSize < UINT_MOD)
    (_hfail : (Item.inflateCall env e).1 ≠ Z_STREAM_END ∨
      (Item.inflateCall env e).2.length ≠ e.unpackedSize) :
    ∃ m, Item.materialize env it = Completion.returned m ∧
      m._initialized = true ∧
      (Item.size env m).2 = e.unpackedSize ∧
      m._buffer.length = e.unpackedSize ∧
      m._buffer = (Item.inflateCall env e).2.take e.unpackedSize ++
        (env.newArray e.unpackedSize).drop
          ((Item.inflateCall env e).2.take e.unpackedSize).length := by
  have hmod : e.unpackedSize % UINT_MOD = e.unpackedSize := Nat.mod_eq_of_lt hu32
  have hinit := Item.initialize_initialized env it
  have hbuf : ( Item._initialize env it)._buffer =
      (Item.inflateCall env e).2.take e.unpackedSize ++
        (env.newArray e.unpackedSize).drop
          ((Item.inflateCall env e).2.take e.unpackedSize).length := by
    rw [initialize_entry env it e hi hs he]
    simp only [Item.initializeFromEntry, hc, if_true, Item.setg, Item.inflateCall, hmod]
  have hsize : ( Item._initialize env it)._size = e.unpackedSize := by
    rw [initialize_entry env it e hi hs he]
    simp only [Item.initializeFromEntry, hc, if_true, Item.setg, hmod]
  refine ⟨Item._initialize env it, rfl, hinit, ?_, ?_, hbuf⟩
  · simp only [Item.size, Item.initialize_idem, hsize]
  · rw [hbuf, List.length_append, List.length_drop, length_newArray]
    have hle : ((Item.inflateCall env e).2.take e.unpackedSize).length ≤ e.unpackedSize := by
      rw [List.length_take]
      exact Nat.min_le_left _ _
    omega

/-- C10, amended, at a concrete input: the compressed sample entry with corrupt data. -/
theorem failed_inflate_completes_witness :
    ((Item.inflateCall envZlib corruptEntry).1 ≠ Z_STREAM_END ∨
      (Item.inflateCall envZlib corruptEntry).2.length ≠ corruptEntry.unpackedSize) ∧
    ∃ m, Item.materialize envZlib (entryItem corruptEntry) = Completion.returned m ∧
      m._initialized = true ∧
      (Item.size envZlib m).2 = corruptEntry.unpackedSize ∧
      m._buffer.length = corruptEntry.unpackedSize ∧
      m._buffer = (Item.inflateCall envZlib corruptEntry).2.take corruptEntry.unpackedSize ++
        (envZlib.newArray corruptEntry.unpackedSize).drop
          ((Item.inflateCall envZlib corruptEntry).2.take corruptEntry.unpackedSize).length :=
  ⟨by decide,
    failed_inflate_completes envZlib (entryItem corruptEntry) corruptEntry (by decide)
      (by decide) (by decide) (by decide) (by decide) (by decide)⟩

/-! ## Repositioning -/

theorem materialized_setPosition (env : Env) (it : Item) (pos : Nat) (hm : it.Materialized) :
    (Item.setPosition env it pos).Materialized := by
  obtain ⟨hi, hlen, _, _, hlt⟩ := hm
  simp only [Item.setPosition, Item.initialize_of_initialized env it hi, Item.setg]
  exact ⟨hi, hlen, rfl, rfl, hlt⟩

theorem materialized_skipBytes (env : Env) (it : Item) (k : Nat) (hm : it.Materialized) :
    (Item.skipBytes env it k).Materialized := by
  obtain ⟨hi, hlen, _, _, hlt⟩ := hm
  simp only [Item.skipBytes, Item.initialize_of_initialized env it hi, Item.setg]
  exact ⟨hi, hlen, rfl, rfl, hlt⟩

/-- C11: for every materialized item and every p (an unsigned int; no bound on p is
checked and nothing is clamped), after setPosition(p) position() returns p, the buffer
content and size() are unchanged, and the resulting item is the same whatever the previous
read position was. -/
theorem setPosition_sets_position (env : Env) (it : Item) (p : Nat) (hm : it.Materialized)
    (hp : p < UINT_MOD) :
    (Item.position env (Item.setPosition env it p)).2 = p ∧
    (Item.setPosition env it p)._buffer = it._buffer ∧
    (Item.size env (Item.setPosition env it p)).2 = (Item.size env it).2 ∧
    (∀ g, Item.setPosition env { it with gptr := g } p = Item.setPosition env it p) := by
  have hi := hm.1
  have hm1 := materialized_setPosition env it p hm
  refine ⟨?_, ?_, ?_, ?_⟩
  · rw [Item.position_of_materialized env _ hm1]
    simp only [Item.setPosition, Item.initialize_of_initialized env it hi, Item.setg]
    exact Nat.mod_eq_of_lt hp
  · simp only [Item.setPosition, Item.initialize_of_initialized env it hi, Item.setg]
  · rw [size_of_materialized env _ hm1, size_of_materialized env it hm]
    simp only [Item.setPosition, Item.initialize_of_initialized env it hi, Item.setg]
  · intro g
    have hig : ({ it with gptr := g } : Item)._initialized = true := hi
    simp only [Item.setPosition, Item.initialize_of_initialized env it hi,
      Item.initialize_of_initialized env _ hig, Item.setg]

/-- C11 at a concrete input: position 9 set on the six-byte sample, beyond its end. -/
theorem setPosition_sets_position_witness :
    (Item.position envZlib (Item.setPosition envZlib sampleItem2 9)).2 = 9 ∧
    (Item.setPosition envZlib sampleItem2 9)._buffer = sampleItem2._buffer ∧
    (Item.size envZlib (Item.setPosition envZlib sampleItem2 9)).2 =
      (Item.size envZlib sampleItem2).2 ∧
    (∀ g, Item.setPosition envZlib { sampleItem2 with gptr := g } 9 =
      Item.setPosition envZlib sampleItem2 9) :=
  setPosition_sets_position envZlib sampleItem2 9 (by decide) (by decide)

/-- C12: for every materialized item at position p and every n, skipBytes(n) has the same
effect on the item as setPosition(p + n): the buffer content and size() are unchanged,
nothing is copied, and position() afterwards is p + n as an unsigned int, which is p + n
itself whenever p + n fits an unsigned int. -/
theorem skipBytes_advances (env : Env) (it : Item) (p n : Nat) (hm : it.Materialized)
    (hp : it.gptr = p) :
    Item.skipBytes env it n = Item.setPosition env it (p + n) ∧
    (Item.skipBytes env it n)._buffer = it._buffer ∧
    (Item.size env (Item.skipBytes env it n)).2 = (Item.size env it).2 ∧
    (Item.position env (Item.skipBytes env it n)).2 = (p + n) % UINT_MOD ∧
    (p + n < UINT_MOD → (Item.position env (Item.skipBytes env it n)).2 = p + n) := by
  subst hp
  have hi := hm.1
  have hm1 := materialized_skipBytes env it n hm
  have hpos : (Item.position env (Item.skipBytes env it n)).2 = (it.gptr + n) % UINT_MOD := by
    rw [Item.position_of_materialized env _ hm1]
    simp only [Item.skipBytes, Item.initialize_of_initialized env it hi, Item.setg]
  refine ⟨?_, ?_, ?_, hpos, fun h => ?_⟩
  · simp only [Item.skipBytes, Item.setPosition, Item.initialize_of_initialized env it hi]
  · simp only [Item.skipBytes, Item.initialize_of_initialized env it hi, Item.setg]
  · rw [size_of_materialized env _ hm1, size_of_materialized env it hm]
    simp only [Item.skipBytes, Item.initialize_of_initialized env it hi, Item.setg]
  · rw [hpos]
    exact Nat.mod_eq_of_lt h

/-- C12 at a concrete input: two bytes skipped from position 1 of the six-byte sample. -/
theorem skipBytes_advances_witness :
    Item.skipBytes envZlib sampleItem2 2 = Item.setPosition envZlib sampleItem2 (1 + 2) ∧
    (Item.skipBytes envZlib sampleItem2 2)._buffer = sampleItem2._buffer ∧
    (Item.size envZlib (Item.skipBytes envZlib sampleItem2 2)).2 =
      (Item.size envZlib sampleItem2).2 ∧
    (Item.position envZlib (Item.skipBytes envZlib sampleItem2 2)).2 = (1 + 2) % UINT_MOD ∧
    (1 + 2 < UINT_MOD →
      (Item.position envZlib (Item.skipBytes envZlib sampleItem2 2)).2 = 1 + 2) :=
  skipBytes_advances envZlib sampleItem2 1 2 (by decide) (by decide)

/-! ## Signed decodes -/

theorem xsgetn_length_le (env : Env) (n : Nat) (it it1 : Item) (cs : List Byte)
    (h : Item.xsgetn env it n = some (it1, cs)) : cs.length ≤ n := by
  induction n generalizing it it1 cs with
  | zero =>
    simp only [Item.xsgetn, Option.some.injEq, Prod.mk.injEq] at h
    rw [← h.2]
    exact Nat.le_refl _
  | succ n ih =>
    simp only [Item.xsgetn] at h
    cases hs : Item.sbumpc env it with
    | none => simp [hs] at h
    | some q =>
      obtain ⟨it2, r⟩ := q
      cases r with
      | eof =>
        simp only [hs, Option.some.injEq, Prod.mk.injEq] at h
        rw [← h.2]
        exact Nat.zero_le _
      | char c =>
        simp only [hs] at h
        cases hx : Item.xsgetn env it2 n with
        | none => simp [hx] at h
        | some q2 =>
          obtain ⟨it3, cs3⟩ := q2
          simp only [hx, Option.some.injEq, Prod.mk.injEq] at h
          have h3 := ih it2 it3 cs3 hx
          rw [← h.2, List.length_cons]
          omega

theorem sgetn_length (env : Env) (n : Nat) (it it1 : Item) (dst dst1 : List Byte)
    (hd : dst.length = n) (h : Item.sgetn env it dst n = some (it1, dst1)) :
    dst1.length = n := by
  simp only [Item.sgetn] at h
  cases hx : Item.xsgetn env it n with
  | none => simp [hx] at h
  | some q =>
    obtain ⟨it2, cs⟩ := q
    simp only [hx, Option.some.injEq, Prod.mk.injEq] at h
    have hle := xsgetn_length_le env n it it2 cs hx
    rw [← h.2, List.length_append, List.length_drop]
    omega

theorem ofBytes_lt (bs : List Byte) : Item.ofBytes bs < 256 ^ bs.length := by
  induction bs with
  | nil => simp [Item.ofBytes]
  | cons b bs ih =>
    have hb := b.isLt
    simp only [Item.ofBytes, List.length_cons, pow_succ]
    omega

theorem extract_uint32_lt (env : Env) (it it1 : Item) (value r : Nat)
    (h : Item.extract_uint32 env it value = some (it1, r)) : r < 4294967296 := by
  simp only [Item.extract_uint32] at h
  cases hx : Item.sgetn env ( Item._initialize env it) (Item.toBytes 4 value) 4 with
  | none => simp [hx] at h
  | some q =>
    obtain ⟨it2, b2⟩ := q
    simp only [hx, Option.some.injEq, Prod.mk.injEq] at h
    have hl := sgetn_length env 4 _ it2 _ b2 (length_toBytes 4 value) hx
    rw [← h.2]
    by_cases he : it2._endianness = Endianness.ENDIANNESS_BIG
    · have := ofBytes_lt b2.reverse
      simp only [he, if_true]
      rw [List.length_reverse, hl] at this
      exact this
    · have := ofBytes_lt b2
      simp only [he, if_false]
      rw [hl] at this
      exact this

theorem extract_uint16_lt (env : Env) (it it1 : Item) (value r : Nat)
    (h : Item.extract_uint16 env it value = some (it1, r)) : r < 65536 := by
  simp only [Item.extract_uint16] at h
  cases hx : Item.sgetn env ( Item._initialize env it) (Item.toBytes 2 value) 2 with
  | none => simp [hx] at h
  | some q =>
    obtain ⟨it2, b2⟩ := q
    simp only [hx, Option.some.injEq, Prod.mk.injEq] at h
    have hl := sgetn_length env 2 _ it2 _ b2 (length_toBytes 2 value) hx
    rw [← h.2]
    by_cases he : it2._endianness = Endianness.ENDIANNESS_BIG
    · have := ofBytes_lt b2.reverse
      simp only [he, if_true]
      rw [List.length_reverse, hl] at this
      exact this
    · have := ofBytes_lt b2
      simp only [he, if_false]
      rw [hl] at this
      exact this

theorem extract_uint8_lt (env : Env) (it it1 : Item) (value r : Nat)
    (h : Item.extract_uint8 env it value = some (it1, r)) : r < 256 := by
  simp only [Item.extract_uint8] at h
  cases hx : Item.sgetn env ( Item._initialize env it) (Item.toBytes 1 value) 1 with
  | none => simp [hx] at h
  | some q =>
    obtain ⟨it2, b2⟩ := q
    simp only [hx, Option.some.injEq, Prod.mk.injEq] at h
    have hl := sgetn_length env 1 _ it2 _ b2 (length_toBytes 1 value) hx
    rw [← h.2]
    have := ofBytes_lt b2
    rw [hl] at this
    exact this

theorem toSigned_32 (r : Nat) (h : r < 4294967296) :
    Item.toUnsigned 32 (Item.toSigned 32 r) = r ∧
      -2147483648 ≤ Item.toSigned 32 r ∧ Item.toSigned 32 r < 2147483648 := by
  simp only [Item.toUnsigned, Item.toSigned, Nat.reducePow, Nat.reduceSub]
  split <;> norm_num <;> omega

theorem toSigned_16 (r : Nat) (h : r < 65536) :
    Item.toUnsigned 16 (Item.toSigned 16 r) = r ∧
      -32768 ≤ Item.toSigned 16 r ∧ Item.toSigned 16 r < 32768 := by
  simp only [Item.toUnsigned, Item.toSigned, Nat.reducePow, Nat.reduceSub]
  split <;> norm_num <;> omega

theorem toSigned_8 (r : Nat) (h : r < 256) :
    Item.toUnsigned 8 (Item.toSigned 8 r) = r ∧
      -128 ≤ Item.toSigned 8 r ∧ Item.toSigned 8 r < 128 := by
  simp only [Item.toUnsigned, Item.toSigned, Nat.reducePow, Nat.reduceSub]
  split <;> norm_num <;> omega

/-- C13: for each width 8, 16 and 32, every item state and either endianness, the signed
decode gives what the unsigned decode gives from the same state and the same bits in the
variable, read as a two's-complement number: it fails exactly when the unsigned decode
does, it leaves the same item (same position), and its result has the bit pattern of the
unsigned result and lies in the signed range of the width. -/
theorem signed_decode_reinterprets (env : Env) (it : Item) (value : Int) :
    (Item.extract_int32 env it value =
        (Item.extract_uint32 env it (Item.toUnsigned 32 value)).map
          (fun q => (q.1, Item.toSigned 32 q.2)) ∧
      ∀ it1 r, Item.extract_uint32 env it (Item.toUnsigned 32 value) = some (it1, r) →
        Item.toUnsigned 32 (Item.toSigned 32 r) = r ∧
          -2147483648 ≤ Item.toSigned 32 r ∧ Item.toSigned 32 r < 2147483648) ∧
    (Item.extract_int16 env it value =
        (Item.extract_uint16 env it (Item.toUnsigned 16 value)).map
          (fun q => (q.1, Item.toSigned 16 q.2)) ∧
      ∀ it1 r, Item.extract_uint16 env it (Item.toUnsigned 16 value) = some (it1, r) →
        Item.toUnsigned 16 (Item.toSigned 16 r) = r ∧
          -32768 ≤ Item.toSigned 16 r ∧ Item.toSigned 16 r < 32768) ∧
    (Item.extract_int8 env it value =
        (Item.extract_uint8 env it (Item.toUnsigned 8 value)).map
          (fun q => (q.1, Item.toSigned 8 q.2)) ∧
      ∀ it1 r, Item.extract_uint8 env it (Item.toUnsigned 8 value) = some (it1, r) →
        Item.toUnsigned 8 (Item.toSigned 8 r) = r ∧
          -128 ≤ Item.toSigned 8 r ∧ Item.toSigned 8 r < 128) := by
  refine ⟨⟨?_, fun it1 r h => toSigned_32 r (extract_uint32_lt env it it1 _ r h)⟩,
    ⟨?_, fun it1 r h => toSigned_16 r (extract_uint16_lt env it it1 _ r h)⟩,
    ⟨?_, fun it1 r h => toSigned_8 r (extract_uint8_lt env it it1 _ r h)⟩⟩
  · simp only [Item.extract_int32]
    cases Item.extract_uint32 env it (Item.toUnsigned 32 value) <;> rfl
  · simp only [Item.extract_int16]
    cases Item.extract_uint16 env it (Item.toUnsigned 16 value) <;> rfl
  · simp only [Item.extract_int8]
    cases Item.extract_uint8 env it (Item.toUnsigned 8 value) <;> rfl

/-! ## The endianness flag -/

theorem initialize_setEndianness (env : Env) (it : Item) (e : Endianness) :
    Item._initialize env (Item.setEndianness it e) =
      Item.setEndianness ( Item._initialize env it) e := by
  unfold Item._initialize
  by_cases hi : it._initialized = true
  · simp [Item.setEndianness, hi]
  · cases hs : it._stream with
    | some st => simp [Item.setEndianness, hi, hs, Item.initializeFromStream, Item.setg]
    | none =>
      cases he : it._datFileEntry with
      | none => simp [Item.setEndianness, hi, hs, he]
      | some en =>
        by_cases hc : en.compressed = true <;>
          simp [Item.setEndianness, hi, hs, he, Item.initializeFromEntry, Item.setg, hc]

theorem sbumpc_setEndianness (env : Env) (it : Item) (e : Endianness) :
    Item.sbumpc env (Item.setEndianness it e) =
      (Item.sbumpc env it).map (fun q => (Item.setEndianness q.1 e, q.2)) := by
  unfold Item.sbumpc Item.uflow Item.underflow
  rw [initialize_setEndianness]
  have hg : ∀ x : Item, (Item.setEndianness x e).gptr = x.gptr := fun _ => rfl
  have hE : ∀ x : Item, (Item.setEndianness x e).egptr = x.egptr := fun _ => rfl
  have hB : ∀ x : Item, (Item.setEndianness x e)._buffer = x._buffer := fun _ => rfl
  simp only [hg, hE, hB]
  by_cases hlt : it.gptr < it.egptr
  · simp only [hlt, if_true]
    cases it._buffer[it.gptr]? <;> rfl
  · simp only [hlt, if_false]
    by_cases heq : ( Item._initialize env it).gptr = ( Item._initialize env it).egptr
    · simp only [heq, if_true, Option.map_some']
    · simp only [heq, if_false]
      cases hb : ( Item._initialize env it)._buffer[( Item._initialize env it).gptr]? with
      | none => rfl
      | some c =>
        simp only [hg, hB, hb, Option.map_some']
        rfl

theorem xsgetn_setEndianness (env : Env) (n : Nat) (it : Item) (e : Endianness) :
    Item.xsgetn env (Item.setEndianness it e) n =
      (Item.xsgetn env it n).map (fun q => (Item.setEndianness q.1 e, q.2)) := by
  induction n generalizing it with
  | zero => simp [Item.xsgetn]
  | succ n ih =>
    simp only [Item.xsgetn, sbumpc_setEndianness]
    cases hs : Item.sbumpc env it with
    | none => simp
    | some q =>
      obtain ⟨it1, r⟩ := q
      cases r with
      | eof => simp
      | char c =>
        simp only [Option.map_some', ih]
        cases Item.xsgetn env it1 n <;> simp

theorem sgetn_setEndianness (env : Env) (n : Nat) (it : Item) (dst : List Byte)
    (e : Endianness) :
    Item.sgetn env (Item.setEndianness it e) dst n =
      (Item.sgetn env it dst n).map (fun q => (Item.setEndianness q.1 e, q.2)) := by
  simp only [Item.sgetn, xsgetn_setEndianness]
  cases Item.xsgetn env it n <;> simp

/-- C14: the endianness flag touches nothing but the 16- and 32-bit decoded values.  For
an item and the item that differs from it in the endianness flag only, size(), position(),
bytesRemains(), setPosition, skipBytes, readBytes and the 8-bit decodes give the same
results and leave items that again differ in the flag only (same read position, same
buffer); setEndianness changes neither buffer, size nor get area; and the 16- and 32-bit
decodes fail or succeed alike and leave items that differ in the flag only. -/
theorem endianness_flag_is_inert (env : Env) (it : Item) (e : Endianness) :
    Item.size env (Item.setEndianness it e) =
      (Item.setEndianness (Item.size env it).1 e, (Item.size env it).2) ∧
    Item.position env (Item.setEndianness it e) =
      (Item.setEndianness (Item.position env it).1 e, (Item.position env it).2) ∧
    Item.bytesRemains env (Item.setEndianness it e) =
      (Item.setEndianness (Item.bytesRemains env it).1 e, (Item.bytesRemains env it).2) ∧
    (∀ pos, Item.setPosition env (Item.setEndianness it e) pos =
      Item.setEndianness (Item.setPosition env it pos) e) ∧
    (∀ k, Item.skipBytes env (Item.setEndianness it e) k =
      Item.setEndianness (Item.skipBytes env it k) e) ∧
    (∀ dst k, Item.readBytes env (Item.setEndianness it e) dst k =
      (Item.readBytes env it dst k).map (fun q => (Item.setEndianness q.1 e, q.2))) ∧
    (∀ value, Item.extract_uint8 env (Item.setEndianness it e) value =
      (Item.extract_uint8 env it value).map (fun q => (Item.setEndianness q.1 e, q.2))) ∧
    (∀ value, Item.extract_int8 env (Item.setEndianness it e) value =
      (Item.extract_int8 env it value).map (fun q => (Item.setEndianness q.1 e, q.2))) ∧
    ((Item.setEndianness it e)._buffer = it._buffer ∧
      (Item.setEndianness it e)._size = it._size ∧
      (Item.setEndianness it e).eback = it.eback ∧
      (Item.setEndianness it e).gptr = it.gptr ∧
      (Item.setEndianness it e).egptr = it.egptr) ∧
    (∀ value, (Item.extract_uint16 env (Item.setEndianness it e) value).map (fun q => q.1) =
      (Item.extract_uint16 env it value).map (fun q => Item.setEndianness q.1 e)) ∧
    (∀ value, (Item.extract_uint32 env (Item.setEndianness it e) value).map (fun q => q.1) =
      (Item.extract_uint32 env it value).map (fun q => Item.setEndianness q.1 e)) := by
  have h8 : ∀ value, Item.extract_uint8 env (Item.setEndianness it e) value =
      (Item.extract_uint8 env it value).map (fun q => (Item.setEndianness q.1 e, q.2)) := by
    intro value
    simp only [Item.extract_uint8, initialize_setEndianness, sgetn_setEndianness]
    cases Item.sgetn env ( Item._initialize env it) (Item.toBytes 1 value) 1 <;> rfl
  refine ⟨?_, ?_, ?_, ?_, ?_, ?_, h8, ?_, ⟨rfl, rfl, rfl, rfl, rfl⟩, ?_, ?_⟩
  · simp only [Item.size, initialize_setEndianness]
    rfl
  · simp only [Item.position, initialize_setEndianness]
    rfl
  · simp only [Item.bytesRemains, Item.size, Item.position, initialize_setEndianness]
    rfl
  · intro pos
    simp only [Item.setPosition, initialize_setEndianness]
    rfl
  · intro k
    simp only [Item.skipBytes, initialize_setEndianness]
    rfl
  · intro dst k
    simp only [Item.readBytes, initialize_setEndianness, sgetn_setEndianness]
  · intro value
    simp only [Item.extract_int8, h8]
    cases Item.extract_uint8 env it (Item.toUnsigned 8 value) <;> rfl
  · intro value
    simp only [Item.extract_uint16, initialize_setEndianness, sgetn_setEndianness]
    cases Item.sgetn env ( Item._initialize env it) (Item.toBytes 2 value) 2 <;> rfl
  · intro value
    simp only [Item.extract_uint32, initialize_setEndianness, sgetn_setEndianness]
    cases Item.sgetn env ( Item._initialize env it) (Item.toBytes 4 value) 4 <;> rfl

/-! ## Decodes near the end of the buffer -/

/-- A 32-bit decode on a materialized item whose read position is inside the buffer: the
bytes left, at most four, replace the first bytes of the variable. -/
theorem extract_uint32_spec (env : Env) (it : Item) (value : Nat) (hm : it.Materialized)
    (hle : it.gptr ≤ it._size) :
    Item.extract_uint32 env it value =
      some ({ it with gptr := it.gptr + min 4 (it._size - it.gptr) },
        Item.fieldValue it._endianness
          ((it._buffer.drop it.gptr).take 4 ++
            (Item.toBytes 4 value).drop ((it._buffer.drop it.gptr).take 4).length)) := by
  simp only [Item.extract_uint32, Item.initialize_of_initialized env it hm.1,
    sgetn_spec env it _ 4 hm hle, Item.fieldValue]

theorem extract_uint16_spec (env : Env) (it : Item) (value : Nat) (hm : it.Materialized)
    (hle : it.gptr ≤ it._size) :
    Item.extract_uint16 env it value =
      some ({ it with gptr := it.gptr + min 2 (it._size - it.gptr) },
        Item.fieldValue it._endianness
          ((it._buffer.drop it.gptr).take 2 ++
            (Item.toBytes 2 value).drop ((it._buffer.drop it.gptr).take 2).length)) := by
  simp only [Item.extract_uint16, Item.initialize_of_initialized env it hm.1,
    sgetn_spec env it _ 2 hm hle, Item.fieldValue]

theorem extract_uint8_spec (env : Env) (it : Item) (value : Nat) (hm : it.Materialized)
    (hle : it.gptr ≤ it._size) :
    Item.extract_uint8 env it value =
      some ({ it with gptr := it.gptr + min 1 (it._size - it.gptr) },
        Item.ofBytes
          ((it._buffer.drop it.gptr).take 1 ++
            (Item.toBytes 1 value).drop ((it._buffer.drop it.gptr).take 1).length)) := by
  simp only [Item.extract_uint8, Item.initialize_of_initialized env it hm.1,
    sgetn_spec env it _ 1 hm hle]

theorem position_advanced (env : Env) (it : Item) (k : Nat) (hm : it.Materialized)
    (hle : it.gptr + k ≤ it._size) :
    (Item.position env { it with gptr := it.gptr + k }).2 = it.gptr + k := by
  have hm1 : Item.Materialized { it with gptr := it.gptr + k } := hm
  have hsz := hm.2.2.2.2
  rw [Item.position_of_materialized env _ hm1]
  simp only [UINT_MOD] at hsz ⊢
  omega

/-- C15, counterexample: on the six-byte sample a 32-bit or 16-bit decode from position 5
and an 8-bit decode from position 6 all end at position 6, not at 9, 7 and 7. -/
theorem decode_near_end_advances_less :
    sampleItem5.Materialized ∧ (Item.position envZlib sampleItem5).2 = 5 ∧
    (Item.extract_uint32 envZlib sampleItem5 0).map (fun q => (Item.position envZlib q.1).2) =
      some 6 ∧
    (Item.extract_int16 envZlib sampleItem5 0).map (fun q => (Item.position envZlib q.1).2) =
      some 6 ∧
    sampleItem6.Materialized ∧ (Item.position envZlib sampleItem6).2 = 6 ∧
    (Item.extract_uint8 envZlib sampleItem6 0).map (fun q => (Item.position envZlib q.1).2) =
      some 6 := by
  decide

/-- C15, amended: for every materialized item state whose position p is at most size(),
position() after an 8-, 16- or 32-bit decode (signed or unsigned) equals p plus the smaller
of sizeof(type) and the number of bytes left; so with at least sizeof(type) bytes left the
decode advances the cursor by exactly 1, 2 or 4, and with fewer it ends at size(). -/
theorem decode_advances_while_bytes_left (env : Env) (it : Item) (p : Nat)
    (hm : it.Materialized) (hp : it.gptr = p) (hle : p ≤ it._size) :
    (∀ value, (Item.extract_uint8 env it value).map (fun q => (Item.position env q.1).2) =
      some (p + min 1 (it._size - p))) ∧
    (∀ value, (Item.extract_int8 env it value).map (fun q => (Item.position env q.1).2) =
      some (p + min 1 (it._size - p))) ∧
    (∀ value, (Item.extract_uint16 env it value).map (fun q => (Item.position env q.1).2) =
      some (p + min 2 (it._size - p))) ∧
    (∀ value, (Item.extract_int16 env it value).map (fun q => (Item.position env q.1).2) =
      some (p + min 2 (it._size - p))) ∧
    (∀ value, (Item.extract_uint32 env it value).map (fun q => (Item.position env q.1).2) =
      some (p + min 4 (it._size - p))) ∧
    (∀ value, (Item.extract_int32 env it value).map (fun q => (Item.position env q.1).2) =
      some (p + min 4 (it._size - p))) ∧
    (p + 1 ≤ it._size → p + min 1 (it._size - p) = p + 1) ∧
    (p + 2 ≤ it._size → p + min 2 (it._size - p) = p + 2) ∧
    (p + 4 ≤ it._size → p + min 4 (it._size - p) = p + 4) ∧
    (it._size < p + 1 → p + min 1 (it._size - p) = it._size) ∧
    (it._size < p + 2 → p + min 2 (it._size - p) = it._size) ∧
    (it._size < p + 4 → p + min 4 (it._size - p) = it._size) := by
  subst hp
  have h1 := position_advanced env it (min 1 (it._size - it.gptr)) hm (by omega)
  have h2 := position_advanced env it (min 2 (it._size - it.gptr)) hm (by omega)
  have h4 := position_advanced env it (min 4 (it._size - it.gptr)) hm (by omega)
  refine ⟨?_, ?_, ?_, ?_, ?_, ?_, ?_, ?_, ?_, ?_, ?_, ?_⟩
  · intro value
    simp only [extract_uint8_spec env it value hm hle, Option.map_some', h1]
  · intro value
    simp only [Item.extract_int8, extract_uint8_spec env it _ hm hle, Option.map_some', h1]
  · intro value
    simp only [extract_uint16_spec env it value hm hle, Option.map_some', h2]
  · intro value
    simp only [Item.extract_int16, extract_uint16_spec env it _ hm hle, Option.map_some', h2]
  · intro value
    simp only [extract_uint32_spec env it value hm hle, Option.map_some', h4]
  · intro value
    simp only [Item.extract_int32, extract_uint32_spec env it _ hm hle, Option.map_some', h4]
  all_goals omega

/-- C15, amended, at a concrete input: the six-byte sample at position 5. -/
theorem decode_advances_while_bytes_left_witness :
    sampleItem5.Materialized ∧
    (Item.extract_uint32 envZlib sampleItem5 0).map (fun q => (Item.position envZlib q.1).2) =
      some (5 + min 4 (sampleItem5._size - 5)) ∧
    (Item.extract_uint8 envZlib sampleItem5 0).map (fun q => (Item.position envZlib q.1).2) =
      some (5 + min 1 (sampleItem5._size - 5)) :=
  ⟨by decide,
    (decode_advances_while_bytes_left envZlib sampleItem5 5 (by decide) (by decide)
      (by decide)).2.2.2.2.1 0,
    (decode_advances_while_bytes_left envZlib sampleItem5 5 (by decide) (by decide)
      (by decide)).1 0⟩

/-! ## The cursor invariant under every operation -/

theorem preserved_of_gptr (env : Env) (it : Item) (g : Nat) (hm : it.Materialized)
    (hg : g ≤ it._size) : Item.Preserved env it { it with gptr := g } := by
  have hm1 : Item.Materialized { it with gptr := g } := hm
  refine ⟨⟨hm1, hg⟩, ?_, rfl, rfl⟩
  rw [Item.position_of_materialized env _ hm1, size_of_materialized env _ hm1]
  exact le_trans (Nat.mod_le _ _) hg

/-- C16, counterexample: on the six-byte sample at position 0, which satisfies the
invariant, setPosition(7) and skipBytes(7) both leave position() at 7, above size() = 6. -/
theorem setPosition_breaks_invariant :
    sampleItem.CursorInv ∧
    (Item.position envZlib sampleItem).2 ≤ (Item.size envZlib sampleItem).2 ∧
    (Item.position envZlib (Item.setPosition envZlib sampleItem 7)).2 = 7 ∧
    (Item.size envZlib (Item.setPosition envZlib sampleItem 7)).2 = 6 ∧
    ¬ (Item.setPosition envZlib sampleItem 7).CursorInv ∧
    (Item.position envZlib (Item.skipBytes envZlib sampleItem 7)).2 = 7 ∧
    (Item.size envZlib (Item.skipBytes envZlib sampleItem 7)).2 = 6 ∧
    ¬ (Item.skipBytes envZlib sampleItem 7).CursorInv := by
  decide

/-- C16, amended: on every materialized item state that satisfies base ≤ current ≤ limit
(position at most size), readBytes and every decode succeed for every argument value and
lead to a state that satisfies it again; setPosition(p) leads to such a state exactly when
p ≤ size() and skipBytes(n) exactly when the position plus n is at most size(); after each
of these operations the buffer is the same buffer with the same size. -/
theorem cursor_invariant_preserved (env : Env) (it : Item) (h : it.CursorInv) :
    (∀ dst n, ∃ it1 dst1, Item.readBytes env it dst n = some (it1, dst1) ∧
      Item.Preserved env it it1) ∧
    (∀ value, ∃ it1 r, Item.extract_uint8 env it value = some (it1, r) ∧
      Item.Preserved env it it1) ∧
    (∀ value, ∃ it1 r, Item.extract_int8 env it value = some (it1, r) ∧
      Item.Preserved env it it1) ∧
    (∀ value, ∃ it1 r, Item.extract_uint16 env it value = some (it1, r) ∧
      Item.Preserved env it it1) ∧
    (∀ value, ∃ it1 r, Item.extract_int16 env it value = some (it1, r) ∧
      Item.Preserved env it it1) ∧
    (∀ value, ∃ it1 r, Item.extract_uint32 env it value = some (it1, r) ∧
      Item.Preserved env it it1) ∧
    (∀ value, ∃ it1 r, Item.extract_int32 env it value = some (it1, r) ∧
      Item.Preserved env it it1) ∧
    (∀ pos, (Item.setPosition env it pos)._buffer = it._buffer ∧
      (Item.setPosition env it pos)._size = it._size ∧
      (pos ≤ it._size → Item.Preserved env it (Item.setPosition env it pos)) ∧
      (it._size < pos → ¬ (Item.setPosition env it pos).CursorInv)) ∧
    (∀ n, (Item.skipBytes env it n)._buffer = it._buffer ∧
      (Item.skipBytes env it n)._size = it._size ∧
      (it.gptr + n ≤ it._size → Item.Preserved env it (Item.skipBytes env it n)) ∧
      (it._size < it.gptr + n → ¬ (Item.skipBytes env it n).CursorInv)) := by
  obtain ⟨hm, hle⟩ := h
  have hi := hm.1
  have hp : ∀ w, Item.Preserved env it { it with gptr := it.gptr + min w (it._size - it.gptr) } :=
    fun w => preserved_of_gptr env it _ hm (by omega)
  refine ⟨?_, ?_, ?_, ?_, ?_, ?_, ?_, ?_, ?_⟩
  · intro dst n
    exact ⟨_, _, Item.readBytes_spec env it dst n hm hle, hp n⟩
  · intro value
    exact ⟨_, _, extract_uint8_spec env it value hm hle, hp 1⟩
  · intro value
    simp only [Item.extract_int8, extract_uint8_spec env it _ hm hle]
    exact ⟨_, _, rfl, hp 1⟩
  · intro value
    exact ⟨_, _, extract_uint16_spec env it value hm hle, hp 2⟩
  · intro value
    simp only [Item.extract_int16, extract_uint16_spec env it _ hm hle]
    exact ⟨_, _, rfl, hp 2⟩
  · intro value
    exact ⟨_, _, extract_uint32_spec env it value hm hle, hp 4⟩
  · intro value
    simp only [Item.extract_int32, extract_uint32_spec env it _ hm hle]
    exact ⟨_, _, rfl, hp 4⟩
  · intro pos
    have hs : Item.setPosition env it pos =
        { it with eback := 0, gptr := pos, egptr := it._size } := by
      simp only [Item.setPosition, Item.initialize_of_initialized env it hi, Item.setg]
    have hm1 := materialized_setPosition env it pos hm
    rw [hs] at hm1 ⊢
    refine ⟨rfl, rfl, fun hpos => ?_, fun hpos hc => ?_⟩
    · refine ⟨⟨hm1, hpos⟩, ?_, rfl, rfl⟩
      rw [Item.position_of_materialized env _ hm1, size_of_materialized env _ hm1]
      exact le_trans (Nat.mod_le _ _) hpos
    · have := hc.2
      simp only at this
      omega
  · intro n
    have hs : Item.skipBytes env it n =
        { it with eback := 0, gptr := it.gptr + n, egptr := it._size } := by
      simp only [Item.skipBytes, Item.initialize_of_initialized env it hi, Item.setg]
    have hm1 := materialized_skipBytes env it n hm
    rw [hs] at hm1 ⊢
    refine ⟨rfl, rfl, fun hpos => ?_, fun hpos hc => ?_⟩
    · refine ⟨⟨hm1, hpos⟩, ?_, rfl, rfl⟩
      rw [Item.position_of_materialized env _ hm1, size_of_materialized env _ hm1]
      exact le_trans (Nat.mod_le _ _) hpos
    · have := hc.2
      simp only at this
      omega

/-- C16, amended, at a concrete input: the six-byte sample at position 5. -/
theorem cursor_invariant_preserved_witness :
    sampleItem5.CursorInv ∧
    (∀ dst n, ∃ it1 dst1, Item.readBytes envZlib sampleItem5 dst n = some (it1, dst1) ∧
      Item.Preserved envZlib sampleItem5 it1) ∧
    (∀ value, ∃ it1 r, Item.extract_uint32 envZlib sampleItem5 value = some (it1, r) ∧
      Item.Preserved envZlib sampleItem5 it1) :=
  ⟨by decide, (cursor_invariant_preserved envZlib sampleItem5 (by decide)).1,
    (cursor_invariant_preserved envZlib sampleItem5 (by decide)).2.2.2.2.2.1⟩

/-! ## Compressed entries -/

/-- C17: compressed round trip.  For every plaintext P (shorter than 2^32 bytes): if an
entry is flagged compressed, its packed data in the archive is Z, the zlib compression of P
(inflate, given Z and room for the length of P, completes and writes P), packedSize is the
length of Z and unpackedSize is the length of P, then after materialization size() is the
length of P and the buffer equals P byte for byte. -/
theorem compressed_round_trip (env : Env) (it : Item) (e : Entry) (P Z : List Byte)
    (hi : it._initialized = false) (hs : it._stream = none) (he : it._datFileEntry = some e)
    (hc : e.compressed = true)
    (hz : (e.datFile.content.drop e.dataOffset).take e.packedSize = Z)
    (hzl : Z.length = e.packedSize) (hu : e.unpackedSize = P.length)
    (hu32 : P.length < UINT_MOD) (hinf : env.inflate Z P.length = (Z_STREAM_END, P)) :
    (Item.size env ( Item._initialize env it)).2 = P.length ∧
    ( Item._initialize env it)._buffer = P ∧
    (Item.position env ( Item._initialize env it)).2 = 0 := by
  have hmod : P.length % UINT_MOD = P.length := Nat.mod_eq_of_lt hu32
  have hzero : (List.replicate e.packedSize (0 : Byte)).drop Z.length = [] :=
    List.drop_eq_nil_of_le (by rw [List.length_replicate, hzl])
  have hjunk : (env.newArray P.length).drop P.length = [] :=
    List.drop_eq_nil_of_le (by rw [length_newArray])
  have htake : Z.take e.packedSize = Z := List.take_of_length_le (by omega)
  have hbuf : ( Item._initialize env it)._buffer = P := by
    rw [initialize_entry env it e hi hs he]
    simp only [Item.initializeFromEntry, hc, if_true, Item.setg, File.setPosition,
      File.readBytes, hz, hzero, List.append_nil, htake, hu, hmod, hinf, List.take_length,
      hjunk]
  have hsize : ( Item._initialize env it)._size = P.length := by
    rw [initialize_entry env it e hi hs he]
    simp only [Item.initializeFromEntry, hc, if_true, Item.setg, hu, hmod]
  have hg : ( Item._initialize env it).gptr = 0 ∧ ( Item._initialize env it).eback = 0 := by
    rw [initialize_entry env it e hi hs he]
    simp only [Item.initializeFromEntry, hc, if_true, Item.setg, and_self]
  refine ⟨?_, hbuf, ?_⟩
  · simp only [Item.size, Item.initialize_idem, hsize]
  · simp only [Item.position, Item.initialize_idem, hg.1, hg.2, UINT_MOD]
    rfl

/-- C17 at a concrete input: the zlib stream of 1, 2, 3, 4 stored at offset 3. -/
theorem compressed_round_trip_witness :
    envZlib.inflate [120, 156, 99, 100, 98, 102, 1, 0, 0, 24, 0, 11]
        ([1, 2, 3, 4] : List Byte).length = (Z_STREAM_END, [1, 2, 3, 4]) ∧
    (Item.size envZlib ( Item._initialize envZlib (entryItem zlibEntry))).2 =
      ([1, 2, 3, 4] : List Byte).length ∧
    ( Item._initialize envZlib (entryItem zlibEntry))._buffer = [1, 2, 3, 4] ∧
    (Item.position envZlib ( Item._initialize envZlib (entryItem zlibEntry))).2 = 0 :=
  ⟨by decide,
    compressed_round_trip envZlib (entryItem zlibEntry) zlibEntry [1, 2, 3, 4]
      [120, 156, 99, 100, 98, 102, 1, 0, 0, 24, 0, 11] (by decide) (by decide) (by decide)
      (by decide) (by decide) (by decide) (by decide) (by decide) (by decide)⟩

/-! ## Reads past the end of the buffer -/

theorem readBytes_at_end (env : Env) (it : Item) (dst : List Byte) (m : Nat)
    (hm : it.Materialized) (he : it.gptr = it._size) :
    Item.readBytes env it dst m = some (it, dst) := by
  have hd : it._buffer.drop it._size = [] := List.drop_eq_nil_of_le (by rw [hm.2.1])
  rw [Item.readBytes_spec env it dst m hm (by omega)]
  simp only [he, Nat.sub_self, Nat.min_zero, Nat.add_zero, hd, List.take_nil, List.length_nil,
    List.drop_zero, List.nil_append]
  cases it
  simp only [Option.some.injEq, Prod.mk.injEq, Item.mk.injEq, and_true, true_and]
  exact he.symm

/-- C18: reading past the limit is a truncated read.  On a materialized item at position p
with r = size - p bytes left, for every n above r, readBytes(dst, n) succeeds without any
error, copies exactly the r bytes left into dst[0..r-1] in order, leaves the bytes of dst
from index r on untouched, and leaves position() equal to size(); a further readBytes on
the resulting item copies nothing and changes nothing. -/
theorem readBytes_truncates (env : Env) (it : Item) (dst : List Byte) (p r n : Nat)
    (hm : it.Materialized) (hp : it.gptr = p) (hle : p ≤ it._size) (hr : r = it._size - p)
    (hn : r < n) :
    ∃ it1 dst1, Item.readBytes env it dst n = some (it1, dst1) ∧
      dst1.take r = it._buffer.drop p ∧ (it._buffer.drop p).length = r ∧
      dst1.drop r = dst.drop r ∧
      (Item.position env it1).2 = (Item.size env it1).2 ∧
      (Item.size env it1).2 = (Item.size env it).2 ∧
      it1._buffer = it._buffer ∧
      (∀ dst2 m, Item.readBytes env it1 dst2 m = some (it1, dst2)) := by
  subst hp hr
  have hlen : (it._buffer.drop it.gptr).length = it._size - it.gptr := by
    rw [List.length_drop, hm.2.1]
  have htake : (it._buffer.drop it.gptr).take n = it._buffer.drop it.gptr :=
    List.take_of_length_le (by omega)
  have hmin : it.gptr + min n (it._size - it.gptr) = it._size := by omega
  have hm1 : Item.Materialized { it with gptr := it._size } := hm
  have hsz := hm.2.2.2.2
  refine ⟨{ it with gptr := it._size },
    it._buffer.drop it.gptr ++ dst.drop (it._size - it.gptr), ?_, ?_, hlen, ?_, ?_, ?_, rfl, ?_⟩
  · rw [Item.readBytes_spec env it dst n hm hle, htake, hmin, hlen]
  · exact List.take_left' hlen
  · exact List.drop_left' hlen
  · rw [Item.position_of_materialized env _ hm1, size_of_materialized env _ hm1]
    exact Nat.mod_eq_of_lt hsz
  · rw [size_of_materialized env _ hm1, size_of_materialized env it hm]
  · intro dst2 m
    exact readBytes_at_end env _ dst2 m hm1 rfl

/-- C18 at a concrete input: five bytes asked for at position 5 of the six-byte sample. -/
theorem readBytes_truncates_witness :
    ∃ it1 dst1, Item.readBytes envZlib sampleItem5 [9, 9, 9, 9, 9] 5 = some (it1, dst1) ∧
      dst1.take 1 = sampleItem5._buffer.drop 5 ∧ (sampleItem5._buffer.drop 5).length = 1 ∧
      dst1.drop 1 = ([9, 9, 9, 9, 9] : List Byte).drop 1 ∧
      (Item.position envZlib it1).2 = (Item.size envZlib it1).2 ∧
      (Item.size envZlib it1).2 = (Item.size envZlib sampleItem5).2 ∧
      it1._buffer = sampleItem5._buffer ∧
      (∀ dst2 m, Item.readBytes envZlib it1 dst2 m = some (it1, dst2)) :=
  readBytes_truncates envZlib sampleItem5 [9, 9, 9, 9, 9] 5 1 5 (by decide) (by decide)
    (by decide) (by decide) (by decide)

/-! ## A multi-byte decode with too few bytes left -/

theorem toBytes_ofBytes (bs : List Byte) : Item.toBytes bs.length (Item.ofBytes bs) = bs := by
  induction bs with
  | nil => rfl
  | cons b bs ih =>
    have hb := b.isLt
    have h1 : (b.val + 256 * Item.ofBytes bs) % 256 = b.val := by omega
    have h2 : (b.val + 256 * Item.ofBytes bs) / 256 = Item.ofBytes bs := by omega
    simp only [List.length_cons, Item.toBytes, Item.ofBytes, h1, h2, ih]

theorem fieldValue_inj (e : Endianness) (l1 l2 : List Byte) (h1 : l1.length = 4)
    (h2 : l2.length = 4) (h : Item.fieldValue e l1 = Item.fieldValue e l2) : l1 = l2 := by
  cases e with
  | ENDIANNESS_BIG =>
    simp only [Item.fieldValue, if_true] at h
    have ha := toBytes_ofBytes l1.reverse
    have hb := toBytes_ofBytes l2.reverse
    rw [List.length_reverse, h1] at ha
    rw [List.length_reverse, h2] at hb
    rw [h, hb] at ha
    exact (List.reverse_inj.mp ha).symm
  | ENDIANNESS_LITTLE =>
    simp only [Item.fieldValue, reduceCtorEq, if_false] at h
    have ha := toBytes_ofBytes l1
    have hb := toBytes_ofBytes l2
    rw [h1] at ha
    rw [h2] at hb
    rw [h, hb] at ha
    exact ha.symm

/-- A 32-bit decode with fewer than four bytes left: the read position ends at the size and
the variable is made of the bytes left followed by its own previous bytes from index
`size - gptr` on. -/
theorem extract_uint32_short_spec (env : Env) (it : Item) (value : Nat) (hm : it.Materialized)
    (hle : it.gptr ≤ it._size) (h4 : it._size - it.gptr < 4) :
    Item.extract_uint32 env it value =
      some ({ it with gptr := it._size },
        Item.fieldValue it._endianness
          (it._buffer.drop it.gptr ++ (Item.toBytes 4 value).drop (it._size - it.gptr))) := by
  have hlen : (it._buffer.drop it.gptr).length = it._size - it.gptr := by
    rw [List.length_drop, hm.2.1]
  have htake : (it._buffer.drop it.gptr).take 4 = it._buffer.drop it.gptr :=
    List.take_of_length_le (by omega)
  have hmin : it.gptr + min 4 (it._size - it.gptr) = it._size := by omega
  rw [extract_uint32_spec env it value hm hle, htake, hmin, hlen]

theorem stale_zero_ne_stale_ones (r : Nat) (h : r < 4) :
    (Item.toBytes 4 0).drop r ≠ (Item.toBytes 4 4294967295).drop r := by
  interval_cases r <;> decide

/-- C19: a 32-bit decode with r < 4 bytes left is not a function of the buffer alone.  On a
materialized item at position p with r = size - p bytes left, operator>>(uint32_t&)
succeeds and leaves position() at size(); the first r bytes of the variable become the r
bytes left and its other 4 - r bytes keep their previous content; under little endianness
these are the bytes of the result, under big endianness all four are reversed, so the stale
bytes come first, in the low-order places.  Two previous values give the same result
exactly when they agree on the stale bytes, and the previous values 0 and 2^32 - 1 give
different results. -/
theorem extract_uint32_short_read (env : Env) (it : Item) (value p r : Nat)
    (hm : it.Materialized) (hp : it.gptr = p) (hle : p ≤ it._size) (hr : r = it._size - p)
    (hr4 : r < 4) :
    (∃ it1 res, Item.extract_uint32 env it value = some (it1, res) ∧
      (Item.position env it1).2 = (Item.size env it1).2 ∧
      (Item.size env it1).2 = (Item.size env it).2 ∧
      (it._buffer.drop p).length = r ∧ ((Item.toBytes 4 value).drop r).length = 4 - r ∧
      (it._endianness = Endianness.ENDIANNESS_LITTLE →
        Item.toBytes 4 res = it._buffer.drop p ++ (Item.toBytes 4 value).drop r) ∧
      (it._endianness = Endianness.ENDIANNESS_BIG →
        Item.toBytes 4 res =
          ((Item.toBytes 4 value).drop r).reverse ++ (it._buffer.drop p).reverse)) ∧
    (∀ value2, (Item.extract_uint32 env it value2).map (fun q => q.2) =
        (Item.extract_uint32 env it value).map (fun q => q.2) ↔
      (Item.toBytes 4 value2).drop r = (Item.toBytes 4 value).drop r) ∧
    (Item.extract_uint32 env it 0).map (fun q => q.2) ≠
      (Item.extract_uint32 env it 4294967295).map (fun q => q.2) := by
  subst hp hr
  have hlen : (it._buffer.drop it.gptr).length = it._size - it.gptr := by
    rw [List.length_drop, hm.2.1]
  have hst : ∀ v, ((Item.toBytes 4 v).drop (it._size - it.gptr)).length =
      4 - (it._size - it.gptr) := by
    intro v
    rw [List.length_drop, length_toBytes]
  have hfull : ∀ v, (it._buffer.drop it.gptr ++
      (Item.toBytes 4 v).drop (it._size - it.gptr)).length = 4 := by
    intro v
    rw [List.length_append, hlen, hst]
    omega
  have hspec := fun v => extract_uint32_short_spec env it v hm hle hr4
  have hm1 : Item.Materialized { it with gptr := it._size } := hm
  have hiff : ∀ v1 v2, (Item.extract_uint32 env it v1).map (fun q => q.2) =
        (Item.extract_uint32 env it v2).map (fun q => q.2) ↔
      (Item.toBytes 4 v1).drop (it._size - it.gptr) =
        (Item.toBytes 4 v2).drop (it._size - it.gptr) := by
    intro v1 v2
    rw [hspec v1, hspec v2]
    simp only [Option.map_some', Option.some.injEq]
    constructor
    · intro h
      exact List.append_cancel_left (fieldValue_inj _ _ _ (hfull v1) (hfull v2) h)
    · intro h
      rw [h]
  refine ⟨⟨_, _, hspec value, ?_, ?_, hlen, hst value, fun he => ?_, fun he => ?_⟩,
    fun value2 => hiff value2 value, ?_⟩
  · rw [Item.position_of_materialized env _ hm1, size_of_materialized env _ hm1]
    exact Nat.mod_eq_of_lt hm.2.2.2.2
  · rw [size_of_materialized env _ hm1, size_of_materialized env it hm]
  · have h := toBytes_ofBytes (it._buffer.drop it.gptr ++
      (Item.toBytes 4 value).drop (it._size - it.gptr))
    rw [hfull value] at h
    simp only [Item.fieldValue, he, reduceCtorEq, if_false]
    exact h
  · have h := toBytes_ofBytes (it._buffer.drop it.gptr ++
      (Item.toBytes 4 value).drop (it._size - it.gptr)).reverse
    rw [List.length_reverse, hfull value, List.reverse_append] at h
    simp only [Item.fieldValue, he, if_true, List.reverse_append]
    exact h
  · intro h
    exact stale_zero_ne_stale_ones _ hr4 ((hiff 0 4294967295).mp h)

/-- C19 at a concrete input: one byte left at position 5 of the six-byte sample. -/
theorem extract_uint32_short_read_witness :
    sampleItem5.Materialized ∧
    (Item.extract_uint32 envZlib sampleItem5 0).map (fun q => q.2) ≠
      (Item.extract_uint32 envZlib sampleItem5 4294967295).map (fun q => q.2) :=
  ⟨by decide,
    (extract_uint32_short_read envZlib sampleItem5 0 5 1 (by decide) (by decide) (by decide)
      (by decide) (by decide)).2.2⟩

/-! ## The reported size -/

/-- C20: for every item backed by an archive entry, compressed or not, and whatever the
archive holds and whatever inflate returns or writes, size() after materialization is the
entry's declared unpacked size (an unsigned int) and the buffer has that many bytes: the
size never reflects how many bytes inflate produced. -/
theorem size_is_declared_unpacked_size (env : Env) (it : Item) (e : Entry)
    (hi : it._initialized = false) (hs : it._stream = none) (he : it._datFileEntry = some e)
    (hu32 : e.unpackedSize < UINT_MOD) :
    (Item.size env it).2 = e.unpackedSize ∧
    (Item.size env (Item.size env it).1).2 = e.unpackedSize ∧
    (Item.size env it).1._buffer.length = e.unpackedSize ∧
    (Item.size env it).1.Materialized := by
  have hmod : e.unpackedSize % UINT_MOD = e.unpackedSize := Nat.mod_eq_of_lt hu32
  have hinit := Item.initialize_initialized env it
  have hsize : ( Item._initialize env it)._size = e.unpackedSize := by
    rw [initialize_entry env it e hi hs he]
    by_cases hc : e.compressed = true <;>
      simp only [Item.initializeFromEntry, hc, Item.setg, hmod, if_true, if_false,
        Bool.false_eq_true]
  have hg : ( Item._initialize env it).eback = 0 ∧
      ( Item._initialize env it).egptr = e.unpackedSize := by
    rw [initialize_entry env it e hi hs he]
    by_cases hc : e.compressed = true <;>
      simp only [Item.initializeFromEntry, hc, Item.setg, hmod, if_true, if_false,
        Bool.false_eq_true, and_self]
  have hlen : ( Item._initialize env it)._buffer.length = e.unpackedSize := by
    rw [initialize_entry env it e hi hs he]
    by_cases hc : e.compressed = true
    · simp only [Item.initializeFromEntry, hc, Item.setg, hmod, if_true, List.length_append,
        List.length_drop, length_newArray, List.length_take]
      omega
    · simp only [Item.initializeFromEntry, hc, Item.setg, hmod, if_false, Bool.false_eq_true,
        File.readBytes, File.setPosition, List.length_append, List.length_drop,
        length_newArray, List.length_take]
      omega
  refine ⟨?_, ?_, ?_, ?_⟩
  · simp only [Item.size, hsize]
  · simp only [Item.size, Item.initialize_idem, hsize]
  · simp only [Item.size, hlen]
  · simp only [Item.size]
    exact ⟨hinit, by rw [hlen, hsize], hg.1, by rw [hg.2, hsize], by rw [hsize]; exact hu32⟩

/-- C20 at a concrete input: the compressed sample entry whose packed data is corrupt. -/
theorem size_is_declared_unpacked_size_witness :
    (Item.size envZlib (entryItem corruptEntry)).2 = corruptEntry.unpackedSize ∧
    (Item.size envZlib (Item.size envZlib (entryItem corruptEntry)).1).2 =
      corruptEntry.unpackedSize ∧
    (Item.size envZlib (entryItem corruptEntry)).1._buffer.length =
      corruptEntry.unpackedSize ∧
    (Item.size envZlib (entryItem corruptEntry)).1.Materialized :=
  size_is_declared_unpacked_size envZlib (entryItem corruptEntry) corruptEntry (by decide)
    (by decide) (by decide) (by decide)

end Dat
